import Mathlib

/-!
# Disconnected-community counter: the driver `main.cxx`

A shallow embedding of `main.cxx` (option parsing, validation, format dispatch and
the driver pipeline) together with the properties of its specification.

The graph library header `inc/main.hxx` is not part of the sources at hand.  The
driver is therefore embedded over a `Library` record whose fields are the library
functions that `main.cxx` calls; where a property is about what those functions
compute, they are modelled from the specification (section "Library model").

Console output (`printf`/`fprintf`) is not modelled except where it is a step of
the pipeline recorded in the run.
-/

set_option autoImplicit false

namespace DisconnectedCommunities

/-! ## Options -/

/-- The `Options` struct with its default member initialisers. -/
structure Options where
  /-- Input file name. -/
  inputFile : String := ""
  /-- Input file format. -/
  inputFormat : String := "mtx"
  /-- Community membership file name. -/
  membershipFile : String := ""
  /-- Whether the community membership file is keyed. -/
  membershipKeyed : Bool := false
  /-- Community membership start index. -/
  membershipStart : Int := 0
  /-- Whether the input graph is weighted. -/
  weighted : Bool := false
  /-- Whether the input graph is symmetric. -/
  symmetric : Bool := false
  /-- Whether to print help. -/
  help : Bool := false
  deriving DecidableEq, Repr

/-! ## `atoi` -/

/-- The C `isspace` test in the "C" locale. -/
def isSpace (c : Char) : Bool :=
  c = ' ' || c = '\t' || c = '\n' || c = '\x0b' || c = '\x0c' || c = '\r'

/-- Value of the longest prefix of decimal digits, continuing from `acc`. -/
def digitsValue : List Char → Nat → Nat
  | [], acc => acc
  | c :: cs, acc => if c.isDigit then digitsValue cs (acc * 10 + (c.toNat - '0'.toNat)) else acc

/-- The C library `atoi`: leading white space is skipped, an optional sign is read, then the
longest run of decimal digits; no digits gives `0`.  A value outside `int` is undefined
in C and is left unbounded here. -/
def atoi (s : String) : Int :=
  match s.data.dropWhile isSpace with
  | '-' :: cs => - (digitsValue cs 0 : Int)
  | '+' :: cs => (digitsValue cs 0 : Int)
  | cs => (digitsValue cs 0 : Int)

/-! ## `parseOptions` -/

/-- What one iteration of the loop of `parseOptions` does with the key `k`. -/
inductive KeyAction where
  /-- `continue` (the empty key): nothing changes. -/
  | skip
  /-- The options are replaced; no further argument is read. -/
  | set (o : Options)
  /-- The next argument `argv[++i]` is read and stored by `store`. -/
  | take (store : String → Options)

/-- The `if`/`else if` chain in the body of the loop of `parseOptions`, in source order. -/
def parseKey (k : String) (o : Options) : KeyAction :=
  if k = "" then .skip
  else if k = "-h" ∨ k = "--help" then .set { o with help := true }
  else if k = "-i" ∨ k = "--input" then .take fun v => { o with inputFile := v }
  else if k = "-m" ∨ k = "--membership" then .take fun v => { o with membershipFile := v }
  else if k = "-f" ∨ k = "--input-format" then .take fun v => { o with inputFormat := v }
  else if k = "-k" ∨ k = "--membership-keyed" then .set { o with membershipKeyed := true }
  else if k = "-r" ∨ k = "--membership-start" then .take fun v => { o with membershipStart := atoi v }
  else if k = "-w" ∨ k = "--weighted" then .set { o with weighted := true }
  else if k = "-s" ∨ k = "--symmetric" then .set { o with symmetric := true }
  else .set { o with help := true }

/-- How a run of the loop of `parseOptions` ends. -/
inductive ParseEnd where
  /-- The loop condition `i < argc` failed: `return o`. -/
  | done (o : Options)
  /-- The body read `argv[argc]`, the null pointer that ends `argv`, as a C string:
  undefined behaviour, the run stops there. -/
  | nullRead
  /-- The iteration budget ran out while `i < argc` still held. -/
  | unfinished
  deriving DecidableEq

/-- A run of the loop of `parseOptions`, with the indices of `argv` it read. -/
structure ParseRun where
  /-- How the loop ended. -/
  ending : ParseEnd
  /-- Indices read as a key (`string k = argv[i]`), in order. -/
  keyReads : List Nat
  /-- Indices read as the value of a key (`argv[++i]`), in order. -/
  valueReads : List Nat
  /-- Number of executions of the loop body. -/
  iterations : Nat
  deriving DecidableEq

/-- Record one more iteration, at key index `i` with value reads `vs`, before the run `r`. -/
def ParseRun.after (i : Nat) (vs : List Nat) (r : ParseRun) : ParseRun :=
  { r with keyReads := i :: r.keyReads, valueReads := vs ++ r.valueReads,
           iterations := r.iterations + 1 }

/-- The loop `for (int i=1; i<argc; ++i)` of `parseOptions`, from index `i` with options `o`,
for at most `budget` iterations; `argc` is the length of `argv`. -/
def parseLoop (argv : List String) : Nat → Nat → Options → ParseRun
  | budget, i, o =>
    if i < argv.length then
      match budget with
      | 0 => ⟨.unfinished, [], [], 0⟩
      | budget + 1 =>
        match parseKey (argv.getD i "") o with
        | .skip => (parseLoop argv budget (i + 1) o).after i []
        | .set o1 => (parseLoop argv budget (i + 1) o1).after i []
        | .take store =>
          match argv[i + 1]? with
          | some v => (parseLoop argv budget (i + 2) (store v)).after i [i + 1]
          | none => ⟨.nullRead, [i], [i + 1], 1⟩
    else ⟨.done o, [], [], 0⟩

/-- The run of `parseOptions(argc, argv)`: the loop starts at index 1 with default options and
is given `argc - 1` iterations. -/
def parseRun (argv : List String) : ParseRun :=
  parseLoop argv (argv.length - 1) 1 {}

/-- The value `parseOptions(argc, argv)` returns, when it returns. -/
def parseOptions (argv : List String) : Option Options :=
  match (parseRun argv).ending with
  | .done o => some o
  | _ => none

/-! ## Validation -/

/-- The function `validateFormat`. -/
def validateFormat (format : String) : Bool :=
  format = "mtx" || format = "coo" || format = "csv" || format = "tsv"

/-- The function `validateOptions`. -/
def validateOptions (o : Options) : Bool :=
  if o.inputFile.isEmpty then false
  else if o.membershipFile.isEmpty then false
  else if !validateFormat o.inputFormat then false
  else true

/-! ## The library interface used by `main.cxx` -/

/-- An `ifstream` right after its construction from a file name: `none` when the file could
not be opened (the stream is in a failed state), otherwise the contents of the file. -/
abbrev IStream := Option String

/-- The file system seen by `ifstream`: the contents of each file that can be opened. -/
abbrev Files := String → Option String

/-- The functions of `inc/main.hxx` that `main.cxx` calls, over the graph type `G`
(`DiGraph<K, None, E>`).  The header is not among the sources, so they are parameters.
The template argument `WEIGHTED`/`KEYED` is the first argument; a reader receives the graph
`a` it fills and returns it, or throws. -/
structure Library (G : Type) where
  /-- The default-constructed graph `DiGraph<K, None, E> x`. -/
  empty : G
  /-- The call `readGraphMtxFormatOmpW<WEIGHTED>(a, stream)`. -/
  readGraphMtxFormatOmpW : Bool → G → IStream → Except String G
  /-- The call `readGraphCooFormatOmpW<WEIGHTED>(a, stream, symmetric)`. -/
  readGraphCooFormatOmpW : Bool → G → IStream → Bool → Except String G
  /-- The call `readGraphEdgelistFormatOmpW<WEIGHTED>(a, stream, symmetric)`. -/
  readGraphEdgelistFormatOmpW : Bool → G → IStream → Bool → Except String G
  /-- The call `symmetrizeOmp(x)`. -/
  symmetrizeOmp : G → G
  /-- The call `x.span()`. -/
  span : G → Nat
  /-- The call `readVectorW<KEYED>(membership, membershipStream, start)`. -/
  readVectorW : Bool → List Nat → IStream → Int → Except String (List Nat)
  /-- The call `communities(x, membership)`; `.size()` is the length of the result. -/
  communities : G → List Nat → List (Nat × List Nat)
  /-- The call `communitiesDisconnectedOmp(x, membership)`, a `vector<char>`. -/
  communitiesDisconnectedOmp : G → List Nat → List Nat
  /-- The call `countValue(v, c)`. -/
  countValue : List Nat → Nat → Nat

/-! ## `readGraphW` -/

/-- The three reader calls among which `readGraphW` chooses. -/
inductive ReaderBranch where
  | mtx
  | coo
  | edgelist
  deriving DecidableEq, Repr

/-- The `if`/`else if` chain of `readGraphW` on the format string; `none` is the final
`else`, which throws. -/
def readerBranch (format : String) : Option ReaderBranch :=
  if format = "mtx" then some .mtx
  else if format = "coo" then some .coo
  else if format = "edgelist" ∨ format = "csv" ∨ format = "tsv" then some .edgelist
  else none

/-- The function `readGraphW<WEIGHTED>(a, file, format, symmetric)`: the stream is
constructed from the file name and handed, without any test, to the reader of the branch;
an error result is a thrown exception. -/
def readGraphW {G : Type} (L : Library G) (fs : Files) (weighted : Bool) (a : G)
    (file format : String) (symmetric : Bool) : Except String G :=
  let stream : IStream := fs file
  match readerBranch format with
  | some .mtx => L.readGraphMtxFormatOmpW weighted a stream
  | some .coo => L.readGraphCooFormatOmpW weighted a stream symmetric
  | some .edgelist => L.readGraphEdgelistFormatOmpW weighted a stream symmetric
  | none => .error ("Unknown input format: " ++ format)

/-! ## `main` -/

/-- The steps of `main` that a run records, in execution order. -/
inductive Step (G : Type) where
  /-- The call `showHelp(argv[0])`. -/
  | showHelp (name : String)
  /-- The call of `readGraphW` on `x` with the file, format, weighted and symmetric flags. -/
  | readGraph (file format : String) (weighted symmetric : Bool)
  /-- The call `symmetrizeOmp(x)`. -/
  | symmetrize (x : G)
  /-- The construction `vector<K> membership(x.span())`. -/
  | sizeMembership (x : G) (n : Nat)
  /-- The call of `readVectorW` on the membership file. -/
  | readMembership (file : String) (keyed : Bool) (start : Int)
  /-- The call `communities(x, membership)`. -/
  | communities (x : G) (membership : List Nat)
  /-- The call `communitiesDisconnectedOmp(x, membership)`. -/
  | communitiesDisconnected (x : G) (membership : List Nat)
  /-- The two lines "Number of communities" and "Number of disconnected communities". -/
  | report (ncom ndis : Nat)

/-- Whether the step is a graph read, a symmetrization, a membership sizing or read, a
connectivity analysis or its report: everything but the help text. -/
def Step.isWork {G : Type} : Step G → Bool
  | .showHelp _ => false
  | _ => true

/-- How the process ends. -/
inductive Exit where
  /-- The statement `return n` of `main`. -/
  | code (n : Int)
  /-- An exception left `main`. -/
  | uncaught (what : String)
  /-- The behaviour is undefined (`parseOptions` read the null pointer `argv[argc]`). -/
  | undefined
  deriving DecidableEq, Repr

/-- A run of `main`: the steps executed and how the process ended. -/
structure Run (G : Type) where
  steps : List (Step G)
  exit : Exit

/-- Prefix the steps `ss` to a run. -/
def Run.after {G : Type} (ss : List (Step G)) (r : Run G) : Run G :=
  { r with steps := ss ++ r.steps }

/-- Lines 175 to 188 of `main`: size and read the membership, count the communities and the
disconnected ones on the graph `x`, return 0. -/
def analyse {G : Type} (L : Library G) (fs : Files) (o : Options) (x : G) : Run G :=
  let membership := List.replicate (L.span x) 0
  let membershipStream : IStream := fs o.membershipFile
  let load : List (Step G) :=
    [.sizeMembership x (L.span x), .readMembership o.membershipFile o.membershipKeyed o.membershipStart]
  match L.readVectorW o.membershipKeyed membership membershipStream o.membershipStart with
  | .error what => ⟨load, .uncaught what⟩
  | .ok membership =>
    let ncom := (L.communities x membership).length
    let ndis := L.countValue (L.communitiesDisconnectedOmp x membership) 1
    ⟨load ++ [.communities x membership, .communitiesDisconnected x membership, .report ncom ndis],
      .code 0⟩

/-- Lines 164 to 188 of `main`, run on valid options: read the graph, symmetrize it unless
`o.symmetric`, then analyse. -/
def pipeline {G : Type} (L : Library G) (fs : Files) (o : Options) : Run G :=
  let read : Step G := .readGraph o.inputFile o.inputFormat o.weighted o.symmetric
  match readGraphW L fs o.weighted L.empty o.inputFile o.inputFormat o.symmetric with
  | .error what => ⟨[read], .uncaught what⟩
  | .ok x =>
    if o.symmetric then (analyse L fs o x).after [read]
    else (analyse L fs o (L.symmetrizeOmp x)).after [read, .symmetrize x]

/-- The function `main(argc, argv)`. -/
def main {G : Type} (L : Library G) (fs : Files) (argv : List String) : Run G :=
  match parseOptions argv with
  | none => ⟨[], .undefined⟩
  | some o =>
    if o.help then ⟨[.showHelp (argv.getD 0 "")], .code 1⟩
    else if !validateOptions o then ⟨[], .code 1⟩
    else pipeline L fs o

/-- The keys after which `parseOptions` reads a value. -/
def takesValue (k : String) : Bool :=
  k = "-i" || k = "--input" || k = "-m" || k = "--membership" ||
  k = "-f" || k = "--input-format" || k = "-r" || k = "--membership-start"

/-- The short and the long form of each option of the help text. -/
def synonyms : List (String × String) :=
  [("-h", "--help"), ("-i", "--input"), ("-f", "--input-format"), ("-m", "--membership"),
   ("-k", "--membership-keyed"), ("-r", "--membership-start"), ("-w", "--weighted"),
   ("-s", "--symmetric")]

/-- A key that asks for the help text: `-h`, `--help`, or a non-empty key that is none of the
options. -/
def requestsHelp (k : String) : Bool :=
  k = "-h" || k = "--help" || (k ≠ "" && !(synonyms.any fun p => k = p.1 || k = p.2))

/-- The five formats of the option `-f, --input-format` in the interface description. -/
def supportedFormats : List String := ["mtx", "coo", "edgelist", "csv", "tsv"]

/-- A file system in which no file can be opened. -/
def noFiles : Files := fun _ => none

/-- A stand-in library that records what the driver hands over: its graph is the list of the
streams its readers received.  A reader appends the stream it is handed and extracts nothing
from it, so the graph has no vertex; the membership reader leaves the vector as it is, and
there are no communities. -/
def recordingLibrary : Library (List IStream) where
  empty := []
  readGraphMtxFormatOmpW := fun _ a stream => .ok (a ++ [stream])
  readGraphCooFormatOmpW := fun _ a stream _ => .ok (a ++ [stream])
  readGraphEdgelistFormatOmpW := fun _ a stream _ => .ok (a ++ [stream])
  symmetrizeOmp := fun x => x
  span := fun _ => 0
  readVectorW := fun _ membership _ _ => .ok membership
  communities := fun _ _ => []
  communitiesDisconnectedOmp := fun _ _ => []
  countValue := fun v c => v.count c

/-! ## Library model

The functions of `inc/main.hxx` whose results the properties below are about, modelled from
the specification of the components (GraphStore, Symmetrizer, CommunityIndex,
ConnectivityAnalyzer, Reporter).  The parallel loops of the library are modelled by their
sequential meaning. -/

/-- Modelled from the spec: the GraphStore (the `DiGraph` of `inc/main.hxx`, which is not among
the sources).  It owns the vertices `[0, span)` and, for each vertex, its out-edge list of
(target, weight) pairs; `adj` holds the out-edge list of each vertex and the span is its
length.  The weight type `W` is a parameter. -/
structure GraphStore (W : Type) where
  adj : List (List (Nat × W))

/-- Modelled from the spec: `span()`, the number of vertices `[0, span)` of a GraphStore. -/
def GraphStore.span {W : Type} (g : GraphStore W) : Nat := g.adj.length

/-- Modelled from the spec: `outNeighbors(vertex)`, the sequence of (target, weight) of a
vertex of a GraphStore; a vertex outside the span has none. -/
def GraphStore.outNeighbors {W : Type} (g : GraphStore W) (u : Nat) : List (Nat × W) :=
  g.adj.getD u []

/-- The targets of the out-edges of `u`. -/
def GraphStore.targets {W : Type} (g : GraphStore W) (u : Nat) : List Nat :=
  (g.outNeighbors u).map Prod.fst

/-- Modelled from the spec: the GraphStore with `span` vertices and no edge. -/
def GraphStore.ofSpan {W : Type} (span : Nat) : GraphStore W := ⟨List.replicate span []⟩

/-- Modelled from the spec: `addVertex(id)` of a GraphStore; the span grows to `id + 1` when it
is smaller, the new vertices have empty neighbour lists, and the span never shrinks. -/
def GraphStore.addVertex {W : Type} (g : GraphStore W) (id : Nat) : GraphStore W :=
  ⟨g.adj ++ List.replicate (id + 1 - g.adj.length) []⟩

/-- Insert the pair `(v, w)` into an out-edge list: an existing entry for the target `v` has its
weight overwritten, otherwise the pair is appended. -/
def upsert {W : Type} (v : Nat) (w : W) : List (Nat × W) → List (Nat × W)
  | [] => [(v, w)]
  | (t, w0) :: rest => if t = v then (t, w) :: rest else (t, w0) :: upsert v w rest

/-- Apply `f` to the element at position `n`, if there is one. -/
def modifyAt {α : Type} (f : α → α) : Nat → List α → List α
  | _, [] => []
  | 0, a :: l => f a :: l
  | n + 1, a :: l => a :: modifyAt f n l

/-- Modelled from the spec: `addEdge(source, target, weight)` of a GraphStore; the span is
extended to hold both endpoints, and inserting an existing (source, target) pair updates its
weight instead of creating a duplicate. -/
def GraphStore.addEdge {W : Type} (g : GraphStore W) (u v : Nat) (w : W) : GraphStore W :=
  ⟨modifyAt (upsert v w) u ((g.addVertex u).addVertex v).adj⟩

/-- Whether the GraphStore has an edge from `u` to `v`. -/
def GraphStore.hasEdge {W : Type} (g : GraphStore W) (u v : Nat) : Bool :=
  (g.targets u).contains v

/-- The out-edges of the vertices `u, u + 1, ...` whose out-edge lists are `adj`, as
(source, target, weight) triples in storage order. -/
def edgesFrom {W : Type} : Nat → List (List (Nat × W)) → List (Nat × Nat × W)
  | _, [] => []
  | u, out :: adj => out.map (fun e => (u, e.1, e.2)) ++ edgesFrom (u + 1) adj

/-- All edges of a GraphStore, by source vertex and then in out-edge list order. -/
def GraphStore.edges {W : Type} (g : GraphStore W) : List (Nat × Nat × W) :=
  edgesFrom 0 g.adj

/-- One step of the Symmetrizer on the input edge `(u, v, w)`: when the output already has the
edge `(u, v)` (it was inserted as the reciprocal of an earlier edge `(v, u)`), the first-seen
weight stays on both; otherwise `(u, v, w)` and `(v, u, w)` are inserted.  A self-loop is
inserted once, the second insertion overwriting the first with the same weight. -/
def symmetrizeStep {W : Type} (y : GraphStore W) (e : Nat × Nat × W) : GraphStore W :=
  if y.hasEdge e.1 e.2.1 then y
  else (y.addEdge e.1 e.2.1 e.2.2).addEdge e.2.1 e.1 e.2.2

/-- Modelled from the spec: the Symmetrizer `symmetrizeOmp` of `inc/main.hxx` (not among the
sources).  The output is a new GraphStore on the same vertices in which, for every input edge
`(u, v, w)`, both `(u, v)` and `(v, u)` exist with one weight, the first-seen one. -/
def symmetrizeOmp {W : Type} (x : GraphStore W) : GraphStore W :=
  x.edges.foldl symmetrizeStep (GraphStore.ofSpan x.span)

/-- The CommunityIndex: for each community id, in order of first appearance, the vertices of
the community in increasing order. -/
abbrev CommunityIndex := List (Nat × List Nat)

/-- Add the vertex `u` to the community `c` of the index, creating the community at the end of
the index when it is new. -/
def communityInsert (c u : Nat) : CommunityIndex → CommunityIndex
  | [] => [(c, [u])]
  | (d, us) :: rest =>
    if d = c then (d, us ++ [u]) :: rest else (d, us) :: communityInsert c u rest

/-- Group the vertices `u, u + 1, ...`, whose community ids are the given list, into the
index. -/
def communityIndexFrom : Nat → List Nat → CommunityIndex → CommunityIndex
  | _, [], index => index
  | u, c :: rest, index => communityIndexFrom (u + 1) rest (communityInsert c u index)

/-- Modelled from the spec: the CommunityIndex `communities(x, membership)` of `inc/main.hxx`
(not among the sources): the vertex ids grouped by their community id in the membership, a
pure derivation from the membership, one entry per distinct community id present in it. -/
def communities {W : Type} (_x : GraphStore W) (membership : List Nat) : CommunityIndex :=
  communityIndexFrom 0 membership []

/-- The targets of the out-edges of `u` that are internal to the community `c`: both endpoints
have the community label `c`. -/
def internalTargets {W : Type} (x : GraphStore W) (membership : List Nat) (c u : Nat) :
    List Nat :=
  (x.targets u).filter fun v => membership[u]? = some c && membership[v]? = some c

/-- Breadth-first traversal over the internal edges of the community `c`: `queue` holds the
reached vertices whose out-edges are still to be followed, `visited` all reached vertices;
each unit of `fuel` follows the out-edges of one vertex. -/
def traverse {W : Type} (x : GraphStore W) (membership : List Nat) (c : Nat) :
    Nat → List Nat → List Nat → List Nat
  | 0, _, visited => visited
  | _ + 1, [], visited => visited
  | fuel + 1, u :: queue, visited =>
    let fresh := ((internalTargets x membership c u).filter fun v => !visited.contains v).dedup
    traverse x membership c fuel (queue ++ fresh) (visited ++ fresh)

/-- Modelled from the spec: the test of the ConnectivityAnalyzer on one community of the index.
A community with at most one member is connected; otherwise the traversal starts from the
first member, and the community is disconnected when it reaches fewer members than the
community has.  Every reached vertex is followed once, so the fuel is the member count. -/
def communityDisconnected {W : Type} (x : GraphStore W) (membership : List Nat)
    (cm : Nat × List Nat) : Bool :=
  match cm.2 with
  | [] => false
  | [_] => false
  | start :: _ =>
    decide ((traverse x membership cm.1 cm.2.length [start] [start]).length < cm.2.length)

/-- Modelled from the spec: the ConnectivityAnalyzer `communitiesDisconnectedOmp(x, membership)`
of `inc/main.hxx` (not among the sources): per community of the index, in index order, the
flag 1 when the community is disconnected and 0 when it is connected. -/
def communitiesDisconnectedOmp {W : Type} (x : GraphStore W) (membership : List Nat) :
    List Nat :=
  (communities x membership).map fun cm => if communityDisconnected x membership cm then 1 else 0

/-- Modelled from the spec: `countValue(v, c)` of `inc/main.hxx` (not among the sources), the
number of entries of `v` equal to `c`; the Reporter counts the flags equal to 1. -/
def countValue (v : List Nat) (c : Nat) : Nat := v.count c

/-- The library of the model: the readers of the graph and of the membership are parameters
(text parsing is not modelled), the other functions are the modelled ones. -/
def modelLibrary {W : Type}
    (readMtx : Bool → GraphStore W → IStream → Except String (GraphStore W))
    (readCoo readEdgelist : Bool → GraphStore W → IStream → Bool → Except String (GraphStore W))
    (readVector : Bool → List Nat → IStream → Int → Except String (List Nat)) :
    Library (GraphStore W) where
  empty := GraphStore.ofSpan 0
  readGraphMtxFormatOmpW := readMtx
  readGraphCooFormatOmpW := readCoo
  readGraphEdgelistFormatOmpW := readEdgelist
  symmetrizeOmp := symmetrizeOmp
  span := GraphStore.span
  readVectorW := readVector
  communities := communities
  communitiesDisconnectedOmp := communitiesDisconnectedOmp
  countValue := countValue

/-- An edge of the graph that is internal to the community `c`: both endpoints have the
community label `c` in the membership. -/
def InternalEdge {W : Type} (x : GraphStore W) (membership : List Nat) (c a b : Nat) : Prop :=
  membership[a]? = some c ∧ membership[b]? = some c ∧ b ∈ x.targets a

/-- The vertex `b` can be reached from `a` through edges internal to the community `c`. -/
def Reaches {W : Type} (x : GraphStore W) (membership : List Nat) (c a b : Nat) : Prop :=
  Relation.ReflTransGen (InternalEdge x membership c) a b

/-- The index `index` groups the vertices `0, ..., pre.length - 1` by the community ids `pre`:
its community ids are distinct and are those of `pre`, and the members of each community are
distinct and are the vertices with that id. -/
def IndexOf (pre : List Nat) (index : CommunityIndex) : Prop :=
  (index.map Prod.fst).Nodup ∧ (∀ c, c ∈ index.map Prod.fst ↔ c ∈ pre) ∧
    ∀ c ms, (c, ms) ∈ index → ms.Nodup ∧ ∀ v, v ∈ ms ↔ pre[v]? = some c

/-- The directed graph on the vertices 0, 1 and 2 whose only edge is `(0, 1)`, of weight `w`. -/
def singleEdgeGraph {W : Type} (w : W) : GraphStore W := ⟨[[(1, w)], [], []]⟩

/-- The library of the model with readers that deliver the graph `g` and the membership
`membership` whatever the files hold. -/
def scenarioLibrary (g : GraphStore ℚ) (membership : List Nat) : Library (GraphStore ℚ) :=
  modelLibrary (fun _ _ _ => .ok g) (fun _ _ _ _ => .ok g) (fun _ _ _ _ => .ok g)
    (fun _ _ _ _ => .ok membership)

/-! # Theorems -/

theorem parseKey_synonyms (p : String × String) (h : p ∈ synonyms) :
    parseKey p.1 = parseKey p.2 := by
  simp only [synonyms, List.mem_cons, List.mem_singleton, List.not_mem_nil, or_false] at h
  rcases h with h | h | h | h | h | h | h | h <;> subst h <;> funext o <;> simp [parseKey]

theorem parseKey_take_iff (k : String) (o : Options) :
    (∃ f, parseKey k o = .take f) ↔ takesValue k = true := by
  unfold parseKey takesValue
  split_ifs <;> simp_all <;> aesop

theorem parseLoop_done (argv : List String) (b i : Nat) (o : Options) (h : ¬ i < argv.length) :
    parseLoop argv b i o = ⟨.done o, [], [], 0⟩ := by
  unfold parseLoop; simp [h]

theorem parseLoop_zero (argv : List String) (i : Nat) (o : Options) (h : i < argv.length) :
    parseLoop argv 0 i o = ⟨.unfinished, [], [], 0⟩ := by
  unfold parseLoop; simp [h]

theorem parseLoop_succ (argv : List String) (b i : Nat) (o : Options) (h : i < argv.length) :
    parseLoop argv (b + 1) i o =
      match parseKey (argv.getD i "") o with
      | .skip => (parseLoop argv b (i + 1) o).after i []
      | .set o1 => (parseLoop argv b (i + 1) o1).after i []
      | .take store =>
        match argv[i + 1]? with
        | some v => (parseLoop argv b (i + 2) (store v)).after i [i + 1]
        | none => ⟨.nullRead, [i], [i + 1], 1⟩ := by
  rw [parseLoop]; simp [h]

/-- Induction along the iterations of the loop of `parseOptions`. -/
theorem parseLoop_induction (argv : List String) (P : Nat → Nat → Options → ParseRun → Prop)
    (hdone : ∀ b i o, ¬ i < argv.length → P b i o ⟨.done o, [], [], 0⟩)
    (hzero : ∀ i o, i < argv.length → P 0 i o ⟨.unfinished, [], [], 0⟩)
    (hskip : ∀ b i o, i < argv.length → parseKey (argv.getD i "") o = .skip →
      P b (i + 1) o (parseLoop argv b (i + 1) o) →
      P (b + 1) i o ((parseLoop argv b (i + 1) o).after i []))
    (hset : ∀ b i o o1, i < argv.length → parseKey (argv.getD i "") o = .set o1 →
      P b (i + 1) o1 (parseLoop argv b (i + 1) o1) →
      P (b + 1) i o ((parseLoop argv b (i + 1) o1).after i []))
    (htake : ∀ b i o store v, i < argv.length → parseKey (argv.getD i "") o = .take store →
      argv[i + 1]? = some v →
      P b (i + 2) (store v) (parseLoop argv b (i + 2) (store v)) →
      P (b + 1) i o ((parseLoop argv b (i + 2) (store v)).after i [i + 1]))
    (hnull : ∀ b i o store, i < argv.length → parseKey (argv.getD i "") o = .take store →
      argv[i + 1]? = none → P (b + 1) i o ⟨.nullRead, [i], [i + 1], 1⟩) :
    ∀ b i o, P b i o (parseLoop argv b i o) := by
  intro b
  induction b with
  | zero =>
    intro i o
    by_cases h : i < argv.length
    · rw [parseLoop_zero argv i o h]; exact hzero i o h
    · rw [parseLoop_done argv 0 i o h]; exact hdone 0 i o h
  | succ b ih =>
    intro i o
    by_cases h : i < argv.length
    · rw [parseLoop_succ argv b i o h]
      cases hk : parseKey (argv.getD i "") o with
      | skip => exact hskip b i o h hk (ih _ _)
      | set o1 => exact hset b i o o1 h hk (ih _ _)
      | take store =>
        cases hv : argv[i + 1]? with
        | none => exact hnull b i o store h hk hv
        | some v => exact htake b i o store v h hk hv (ih _ _)
    · rw [parseLoop_done argv _ i o h]; exact hdone _ i o h

theorem parseLoop_keyReads_bounds (argv : List String) (b i : Nat) (o : Options) :
    ∀ j ∈ (parseLoop argv b i o).keyReads, i ≤ j ∧ j < argv.length := by
  refine parseLoop_induction argv (fun _ i _ r => ∀ j ∈ r.keyReads, i ≤ j ∧ j < argv.length)
    ?_ ?_ ?_ ?_ ?_ ?_ b i o
  · intro b i o _ j hj; simp at hj
  · intro i o _ j hj; simp at hj
  · intro b i o hi _ ih j hj
    simp only [ParseRun.after, List.mem_cons] at hj
    rcases hj with rfl | hj
    · exact ⟨le_rfl, hi⟩
    · have := ih j hj; omega
  · intro b i o o1 hi _ ih j hj
    simp only [ParseRun.after, List.mem_cons] at hj
    rcases hj with rfl | hj
    · exact ⟨le_rfl, hi⟩
    · have := ih j hj; omega
  · intro b i o store v hi _ _ ih j hj
    simp only [ParseRun.after, List.mem_cons] at hj
    rcases hj with rfl | hj
    · exact ⟨le_rfl, hi⟩
    · have := ih j hj; omega
  · intro b i o store hi _ _ j hj
    simp only [List.mem_singleton] at hj
    subst hj; exact ⟨le_rfl, hi⟩

theorem parseLoop_valueReads_bounds (argv : List String) (b i : Nat) (o : Options) :
    ∀ j ∈ (parseLoop argv b i o).valueReads, i < j ∧ j ≤ argv.length := by
  refine parseLoop_induction argv (fun _ i _ r => ∀ j ∈ r.valueReads, i < j ∧ j ≤ argv.length)
    ?_ ?_ ?_ ?_ ?_ ?_ b i o
  · intro b i o _ j hj; simp at hj
  · intro i o _ j hj; simp at hj
  · intro b i o hi _ ih j hj
    simp only [ParseRun.after, List.nil_append] at hj
    have := ih j hj; omega
  · intro b i o o1 hi _ ih j hj
    simp only [ParseRun.after, List.nil_append] at hj
    have := ih j hj; omega
  · intro b i o store v hi _ hv ih j hj
    simp only [ParseRun.after, List.singleton_append, List.mem_cons] at hj
    have hlt : i + 1 < argv.length := by
      by_contra hc
      rw [List.getElem?_eq_none (by omega)] at hv
      exact Option.noConfusion hv
    rcases hj with rfl | hj
    · omega
    · have := ih j hj; omega
  · intro b i o store hi _ _ j hj
    simp only [List.mem_singleton] at hj
    omega

theorem parseLoop_finishes (argv : List String) (b i : Nat) (o : Options)
    (h : argv.length ≤ i + b) : (parseLoop argv b i o).ending ≠ .unfinished := by
  revert h
  refine parseLoop_induction argv
    (fun b i _ r => argv.length ≤ i + b → r.ending ≠ .unfinished) ?_ ?_ ?_ ?_ ?_ ?_ b i o
  · intro b i o _ _; simp
  · intro i o hi h; omega
  · intro b i o _ _ ih h; exact ih (by omega)
  · intro b i o o1 _ _ ih h; exact ih (by omega)
  · intro b i o store v _ _ _ ih h; exact ih (by omega)
  · intro b i o store _ _ _ _; simp

/-- Iterations beyond the `argc - i` that remain change nothing: the run does not depend on the
budget once it is large enough. -/
theorem parseLoop_budget (argv : List String) (k : Nat) :
    ∀ (b i : Nat) (o : Options), argv.length ≤ i + b →
      parseLoop argv (b + k) i o = parseLoop argv b i o := by
  intro b
  induction b with
  | zero =>
    intro i o h
    rw [parseLoop_done argv _ i o (by omega), parseLoop_done argv _ i o (by omega)]
  | succ b ih =>
    intro i o h
    by_cases hi : i < argv.length
    · have e : b + 1 + k = (b + k) + 1 := by omega
      rw [e, parseLoop_succ argv (b + k) i o hi, parseLoop_succ argv b i o hi]
      cases parseKey (argv.getD i "") o with
      | skip => simp only; rw [ih _ _ (by omega)]
      | set o1 => simp only; rw [ih _ _ (by omega)]
      | take store =>
        cases argv[i + 1]? with
        | none => rfl
        | some v => simp only; rw [ih _ _ (by omega)]
    · rw [parseLoop_done argv _ i o hi, parseLoop_done argv _ i o hi]

theorem parseLoop_iterations_le (argv : List String) (b i : Nat) (o : Options) :
    (parseLoop argv b i o).iterations ≤ b := by
  refine parseLoop_induction argv (fun b _ _ r => r.iterations ≤ b) ?_ ?_ ?_ ?_ ?_ ?_ b i o
  · intro b i o _; simp
  · intro i o _; simp
  · intro b i o _ _ ih; simpa [ParseRun.after] using ih
  · intro b i o o1 _ _ ih; simpa [ParseRun.after] using ih
  · intro b i o store v _ _ _ ih; simpa [ParseRun.after] using ih
  · intro b i o store _ _ _; simp

theorem getElem?_some_lt {α : Type} (l : List α) (i : Nat) (v : α) (h : l[i]? = some v) :
    i < l.length := by
  by_contra hc
  rw [List.getElem?_eq_none (by omega)] at h
  exact Option.noConfusion h

theorem getElem?_none_ge {α : Type} (l : List α) (i : Nat) (h : l[i]? = none) :
    l.length ≤ i := by
  by_contra hc
  rw [List.getElem?_eq_getElem (by omega)] at h
  exact Option.noConfusion h

theorem parseLoop_nullRead_iff (argv : List String) (b i : Nat) (o : Options) :
    (parseLoop argv b i o).ending = .nullRead ↔
      ∃ j ∈ (parseLoop argv b i o).keyReads,
        takesValue (argv.getD j "") = true ∧ j + 1 = argv.length := by
  refine parseLoop_induction argv (fun _ _ _ r => r.ending = .nullRead ↔
      ∃ j ∈ r.keyReads, takesValue (argv.getD j "") = true ∧ j + 1 = argv.length)
    ?_ ?_ ?_ ?_ ?_ ?_ b i o
  · intro b i o _; simp
  · intro i o _; simp
  · intro b i o _ hk ih
    have hnt : ¬ takesValue (argv.getD i "") = true := fun ht => by
      obtain ⟨f, hf⟩ := (parseKey_take_iff _ o).2 ht
      rw [hk] at hf; exact KeyAction.noConfusion hf
    simp only [ParseRun.after, List.mem_cons, exists_eq_or_imp]
    rw [ih]; tauto
  · intro b i o o1 _ hk ih
    have hnt : ¬ takesValue (argv.getD i "") = true := fun ht => by
      obtain ⟨f, hf⟩ := (parseKey_take_iff _ o).2 ht
      rw [hk] at hf; exact KeyAction.noConfusion hf
    simp only [ParseRun.after, List.mem_cons, exists_eq_or_imp]
    rw [ih]; tauto
  · intro b i o store v _ _ hv ih
    have hlt := getElem?_some_lt _ _ _ hv
    simp only [ParseRun.after, List.mem_cons, exists_eq_or_imp]
    rw [ih]
    constructor
    · intro h; exact Or.inr h
    · rintro (⟨_, h⟩ | h)
      · omega
      · exact h
  · intro b i o store hi hk hv
    have hge := getElem?_none_ge _ _ hv
    have ht : takesValue (argv.getD i "") = true := (parseKey_take_iff _ o).1 ⟨store, hk⟩
    simp only [List.mem_singleton, exists_eq_left, true_iff]
    exact ⟨ht, by omega⟩

theorem parseLoop_reads_argc_iff (argv : List String) (b i : Nat) (o : Options) :
    argv.length ∈ (parseLoop argv b i o).valueReads ↔
      (parseLoop argv b i o).ending = .nullRead := by
  refine parseLoop_induction argv (fun _ _ _ r => argv.length ∈ r.valueReads ↔
      r.ending = .nullRead) ?_ ?_ ?_ ?_ ?_ ?_ b i o
  · intro b i o _; simp
  · intro i o _; simp
  · intro b i o _ _ ih; simpa [ParseRun.after] using ih
  · intro b i o o1 _ _ ih; simpa [ParseRun.after] using ih
  · intro b i o store v _ _ hv ih
    have hlt := getElem?_some_lt _ _ _ hv
    simp only [ParseRun.after, List.singleton_append, List.mem_cons]
    rw [ih]
    constructor
    · rintro (h | h)
      · omega
      · exact h
    · intro h; exact Or.inr h
  · intro b i o store hi _ hv
    have hge := getElem?_none_ge _ _ hv
    simp only [List.mem_singleton, iff_true]
    omega

theorem parseLoop_ending_cases (argv : List String) (b i : Nat) (o : Options) :
    (∃ o1, (parseLoop argv b i o).ending = .done o1) ∨
      (parseLoop argv b i o).ending = .nullRead ∨
      (parseLoop argv b i o).ending = .unfinished := by
  cases h : (parseLoop argv b i o).ending with
  | done o1 => exact Or.inl ⟨o1, rfl⟩
  | nullRead => exact Or.inr (Or.inl rfl)
  | unfinished => exact Or.inr (Or.inr rfl)

/-- C9: when no key that takes a value (`-i`, `--input`, `-m`, `--membership`, `-f`,
`--input-format`, `-r`, `--membership-start`) is read in key position as the last argument,
every index at which `parseOptions` reads `argv` is below `argc`, the loop ends by its
condition after at most `argc - 1` iterations and returns options; when such a key is the last
argument, `parseOptions` reads `argv[argc]`. -/
theorem parseOptions_reads_within_argv (argv : List String) :
    ((∀ j ∈ (parseRun argv).keyReads,
        takesValue (argv.getD j "") = true → j + 1 ≠ argv.length) →
      (∀ j ∈ (parseRun argv).keyReads ++ (parseRun argv).valueReads, j < argv.length) ∧
      (∃ o, (parseRun argv).ending = .done o) ∧
      (parseRun argv).iterations ≤ argv.length - 1) ∧
    ((∃ j ∈ (parseRun argv).keyReads,
        takesValue (argv.getD j "") = true ∧ j + 1 = argv.length) →
      argv.length ∈ (parseRun argv).valueReads ∧ (parseRun argv).ending = .nullRead) := by
  have hfin : (parseRun argv).ending ≠ .unfinished :=
    parseLoop_finishes argv _ 1 {} (by omega)
  have hnull := parseLoop_nullRead_iff argv (argv.length - 1) 1 {}
  have hargc := parseLoop_reads_argc_iff argv (argv.length - 1) 1 {}
  constructor
  · intro hpre
    have hnn : (parseRun argv).ending ≠ .nullRead := fun h => by
      obtain ⟨j, hj, ht, he⟩ := hnull.1 h
      exact hpre j hj ht he
    refine ⟨?_, ?_, parseLoop_iterations_le argv _ 1 {}⟩
    · intro j hj
      rcases List.mem_append.1 hj with hj | hj
      · exact (parseLoop_keyReads_bounds argv _ 1 {} j hj).2
      · have h1 := (parseLoop_valueReads_bounds argv _ 1 {} j hj).2
        have h2 : j ≠ argv.length := fun he => by
          rw [he] at hj; exact hnn (hargc.1 hj)
        omega
    · rcases parseLoop_ending_cases argv (argv.length - 1) 1 {} with h | h | h
      · exact h
      · exact absurd h hnn
      · exact absurd h hfin
  · intro h
    exact ⟨hargc.2 (hnull.2 h), hnull.2 h⟩

/-- Witness of C9: `-i a` stays within `argv`, a trailing `-i` reads `argv[argc]`. -/
theorem parseOptions_reads_within_argv_witness :
    ((∀ j ∈ (parseRun ["prog", "-i", "a"]).keyReads,
        takesValue (["prog", "-i", "a"].getD j "") = true → j + 1 ≠ 3) ∧
      (∀ j ∈ (parseRun ["prog", "-i", "a"]).keyReads ++ (parseRun ["prog", "-i", "a"]).valueReads,
        j < 3) ∧
      (∃ o, (parseRun ["prog", "-i", "a"]).ending = .done o) ∧
      (parseRun ["prog", "-i", "a"]).iterations ≤ 3 - 1) ∧
    ((∃ j ∈ (parseRun ["prog", "-i"]).keyReads,
        takesValue (["prog", "-i"].getD j "") = true ∧ j + 1 = 2) ∧
      2 ∈ (parseRun ["prog", "-i"]).valueReads ∧ (parseRun ["prog", "-i"]).ending = .nullRead) :=
  ⟨⟨by decide, (parseOptions_reads_within_argv ["prog", "-i", "a"]).1 (by decide)⟩,
    ⟨by decide, (parseOptions_reads_within_argv ["prog", "-i"]).2 (by decide)⟩⟩

theorem parseLoop_key_not_value (argv : List String) (b i : Nat) (o : Options) :
    ∀ j ∈ (parseLoop argv b i o).keyReads, j ∉ (parseLoop argv b i o).valueReads := by
  refine parseLoop_induction argv (fun _ _ _ r => ∀ j ∈ r.keyReads, j ∉ r.valueReads)
    ?_ ?_ ?_ ?_ ?_ ?_ b i o
  · intro b i o _ j hj; simp at hj
  · intro i o _ j hj; simp at hj
  · intro b i o _ _ ih j hj
    simp only [ParseRun.after, List.mem_cons, List.nil_append] at hj ⊢
    rcases hj with rfl | hj
    · intro hv
      have := parseLoop_valueReads_bounds argv b (j + 1) o j hv
      omega
    · exact ih j hj
  · intro b i o o1 _ _ ih j hj
    simp only [ParseRun.after, List.mem_cons, List.nil_append] at hj ⊢
    rcases hj with rfl | hj
    · intro hv
      have := parseLoop_valueReads_bounds argv b (j + 1) o1 j hv
      omega
    · exact ih j hj
  · intro b i o store v _ _ _ ih j hj
    simp only [ParseRun.after, List.mem_cons, List.singleton_append] at hj ⊢
    rcases hj with rfl | hj
    · rintro (h | hv)
      · omega
      · have := parseLoop_valueReads_bounds argv b (j + 2) (store v) j hv
        omega
    · rintro (h | hv)
      · have := parseLoop_keyReads_bounds argv b (i + 2) (store v) j hj
        omega
      · exact ih j hj hv
  · intro b i o store _ _ _ j hj
    simp only [List.mem_singleton] at hj ⊢
    omega

/-- The loop only depends on the arguments it reads: on the action of each key read and on
each value read. -/
theorem parseLoop_congr (argv argv' : List String) (hlen : argv'.length = argv.length)
    (b i : Nat) (o : Options) :
    (∀ j ∈ (parseLoop argv b i o).keyReads,
      parseKey (argv'.getD j "") = parseKey (argv.getD j "")) →
    (∀ j ∈ (parseLoop argv b i o).valueReads, argv'[j]? = argv[j]?) →
    parseLoop argv' b i o = parseLoop argv b i o := by
  refine parseLoop_induction argv (fun b i o r =>
    (∀ j ∈ r.keyReads, parseKey (argv'.getD j "") = parseKey (argv.getD j "")) →
    (∀ j ∈ r.valueReads, argv'[j]? = argv[j]?) → parseLoop argv' b i o = r)
    ?_ ?_ ?_ ?_ ?_ ?_ b i o
  · intro b i o hi _ _
    exact parseLoop_done argv' b i o (by omega)
  · intro i o hi _ _
    exact parseLoop_zero argv' i o (by omega)
  · intro b i o hi hk ih hkeys hvals
    rw [parseLoop_succ argv' b i o (by omega),
      hkeys i (by simp [ParseRun.after]), hk]
    simp only
    rw [ih (fun j hj => hkeys j (by simp [ParseRun.after, hj]))
      (fun j hj => hvals j (by simpa [ParseRun.after] using hj))]
  · intro b i o o1 hi hk ih hkeys hvals
    rw [parseLoop_succ argv' b i o (by omega),
      hkeys i (by simp [ParseRun.after]), hk]
    simp only
    rw [ih (fun j hj => hkeys j (by simp [ParseRun.after, hj]))
      (fun j hj => hvals j (by simpa [ParseRun.after] using hj))]
  · intro b i o store v hi hk hv ih hkeys hvals
    rw [parseLoop_succ argv' b i o (by omega),
      hkeys i (by simp [ParseRun.after]), hk]
    simp only
    rw [hvals (i + 1) (by simp [ParseRun.after]), hv]
    simp only
    rw [ih (fun j hj => hkeys j (by simp [ParseRun.after, hj]))
      (fun j hj => hvals j (by simp [ParseRun.after, hj]))]
  · intro b i o store hi hk hv hkeys hvals
    rw [parseLoop_succ argv' b i o (by omega),
      hkeys i (by simp), hk]
    simp only
    rw [hvals (i + 1) (by simp), hv]

/-- Replacing a key that the loop reads by one with the same action leaves the run unchanged. -/
theorem parseRun_set_key (argv : List String) (i : Nat) (k : String)
    (hi : i ∈ (parseRun argv).keyReads) (hk : parseKey k = parseKey (argv.getD i "")) :
    parseRun (argv.set i k) = parseRun argv := by
  unfold parseRun
  rw [List.length_set]
  apply parseLoop_congr argv (argv.set i k) (List.length_set _ _ _)
  · intro j hj
    by_cases hji : j = i
    · subst hji
      have hlt := (parseLoop_keyReads_bounds argv _ 1 {} j hj).2
      simp [List.getD_eq_getElem?_getD, List.getElem?_set, hlt, hk] at hk ⊢
    · simp [List.getD_eq_getElem?_getD, List.getElem?_set, Ne.symm hji]
  · intro j hj
    have hne : i ≠ j := fun h => parseLoop_key_not_value argv _ 1 {} i hi (h ▸ hj)
    simp [List.getElem?_set, hne]

/-- C4: at every index that `parseOptions` reads as a key, if the key is the short or the long
form of one of the eight options, putting either form at that index gives the same result of
`parseOptions` as the original argument list, so the two forms are interchangeable. -/
theorem parseOptions_synonyms (argv : List String) (i : Nat) (p : String × String)
    (hp : p ∈ synonyms) (hi : i ∈ (parseRun argv).keyReads)
    (hk : argv.getD i "" = p.1 ∨ argv.getD i "" = p.2) :
    parseOptions (argv.set i p.1) = parseOptions argv ∧
    parseOptions (argv.set i p.2) = parseOptions argv := by
  have hs := parseKey_synonyms p hp
  have h1 : parseKey p.1 = parseKey (argv.getD i "") := by
    rcases hk with h | h
    · rw [h]
    · rw [h]; exact hs
  have h2 : parseKey p.2 = parseKey (argv.getD i "") := by
    rcases hk with h | h
    · rw [h]; exact hs.symm
    · rw [h]
  unfold parseOptions
  rw [parseRun_set_key argv i p.1 hi h1, parseRun_set_key argv i p.2 hi h2]
  exact ⟨rfl, rfl⟩
/-- Witness of C4: in `-i a -s` the key at index 3 may be spelled `-s` or `--symmetric`. -/
theorem parseOptions_synonyms_witness :
    3 ∈ (parseRun ["prog", "-i", "a", "-s"]).keyReads ∧
    parseOptions (["prog", "-i", "a", "-s"].set 3 "-s") = parseOptions ["prog", "-i", "a", "-s"] ∧
    parseOptions (["prog", "-i", "a", "-s"].set 3 "--symmetric")
      = parseOptions ["prog", "-i", "a", "-s"] :=
  ⟨by decide,
    parseOptions_synonyms ["prog", "-i", "a", "-s"] 3 ("-s", "--symmetric") (by decide)
      (by decide) (Or.inl rfl)⟩

theorem parseKey_requestsHelp (k : String) (o : Options) (h : requestsHelp k = true) :
    parseKey k o = .set { o with help := true } := by
  simp only [requestsHelp, synonyms, List.any_cons, List.any_nil, Bool.or_false,
    Bool.or_eq_true, Bool.and_eq_true, Bool.not_eq_true', decide_eq_true_eq, ne_eq,
    decide_not, Bool.not_eq_true, Bool.or_eq_false_iff, decide_eq_false_iff_not] at h
  rcases h with (h | h) | h
  · subst h; simp [parseKey]
  · subst h; simp [parseKey]
  · simp [parseKey, h]

theorem parseKey_set_help (k : String) (o o1 : Options) (h : parseKey k o = .set o1)
    (ho : o.help = true) : o1.help = true := by
  unfold parseKey at h
  split_ifs at h <;> first
    | exact KeyAction.noConfusion h
    | (injection h with h; subst h; simp [ho])

theorem parseKey_take_help (k : String) (o : Options) (store : String → Options)
    (h : parseKey k o = .take store) (v : String) : (store v).help = o.help := by
  unfold parseKey at h
  split_ifs at h <;> first
    | exact KeyAction.noConfusion h
    | (injection h with h; subst h; rfl)

theorem parseLoop_help_kept (argv : List String) (b i : Nat) (o : Options) :
    o.help = true → ∀ o1, (parseLoop argv b i o).ending = .done o1 → o1.help = true := by
  refine parseLoop_induction argv (fun _ _ o r =>
    o.help = true → ∀ o1, r.ending = .done o1 → o1.help = true) ?_ ?_ ?_ ?_ ?_ ?_ b i o
  · intro b i o _ ho o1 h
    simp only [ParseEnd.done.injEq] at h
    subst h; exact ho
  · intro i o _ _ o1 h; simp at h
  · intro b i o _ _ ih ho o1 h; exact ih ho o1 h
  · intro b i o o2 _ hk ih ho o1 h; exact ih (parseKey_set_help _ _ _ hk ho) o1 h
  · intro b i o store v _ hk _ ih ho o1 h
    exact ih (by rw [parseKey_take_help _ _ _ hk]; exact ho) o1 h
  · intro b i o store _ _ _ _ o1 h; simp at h

theorem parseLoop_help_requested (argv : List String) (b i : Nat) (o : Options) :
    ∀ o1, (parseLoop argv b i o).ending = .done o1 →
      (∃ j ∈ (parseLoop argv b i o).keyReads, requestsHelp (argv.getD j "") = true) →
      o1.help = true := by
  refine parseLoop_induction argv (fun _ _ _ r => ∀ o1, r.ending = .done o1 →
      (∃ j ∈ r.keyReads, requestsHelp (argv.getD j "") = true) → o1.help = true)
    ?_ ?_ ?_ ?_ ?_ ?_ b i o
  · intro b i o _ o1 _ h; simp at h
  · intro i o _ o1 h; simp at h
  · intro b i o _ hk ih o1 h hj
    simp only [ParseRun.after, List.mem_cons, exists_eq_or_imp] at hj
    rcases hj with hj | hj
    · rw [parseKey_requestsHelp _ o hj] at hk; exact KeyAction.noConfusion hk
    · exact ih o1 h hj
  · intro b i o o2 _ hk ih o1 h hj
    simp only [ParseRun.after, List.mem_cons, exists_eq_or_imp] at hj
    rcases hj with hj | hj
    · rw [parseKey_requestsHelp _ o hj] at hk
      injection hk with hk
      subst hk
      exact parseLoop_help_kept argv b (i + 1) _ rfl o1 h
    · exact ih o1 h hj
  · intro b i o store v _ hk _ ih o1 h hj
    simp only [ParseRun.after, List.mem_cons, exists_eq_or_imp] at hj
    rcases hj with hj | hj
    · rw [parseKey_requestsHelp _ o hj] at hk; exact KeyAction.noConfusion hk
    · exact ih o1 h hj
  · intro b i o store _ _ _ o1 h; simp at h

theorem parseOptions_eq_some (argv : List String) (o : Options) :
    parseOptions argv = some o ↔ (parseRun argv).ending = .done o := by
  unfold parseOptions
  cases (parseRun argv).ending <;> simp

/-! ## Validation and format dispatch -/

theorem validateFormat_iff (f : String) :
    validateFormat f = true ↔ f = "mtx" ∨ f = "coo" ∨ f = "csv" ∨ f = "tsv" := by
  simp [validateFormat, or_assoc]

theorem validateOptions_iff (o : Options) :
    validateOptions o = true ↔
      o.inputFile ≠ "" ∧ o.membershipFile ≠ "" ∧ validateFormat o.inputFormat = true := by
  unfold validateOptions
  have e1 : ∀ s : String, s.isEmpty = true ↔ s = "" := fun s => by
    simp [String.isEmpty_iff]
  by_cases h1 : o.inputFile = "" <;> by_cases h2 : o.membershipFile = "" <;>
    cases h3 : validateFormat o.inputFormat <;> simp [h1, h2, h3, e1]

theorem validateFormat_false_of_unsupported (f : String) (h : f ∉ supportedFormats) :
    validateFormat f = false := by
  cases hv : validateFormat f with
  | false => rfl
  | true =>
    exfalso
    apply h
    rcases (validateFormat_iff f).1 hv with h | h | h | h <;> subst h <;> decide

theorem readerBranch_of_valid (f : String) (h : validateFormat f = true) :
    (f = "mtx" ∧ readerBranch f = some .mtx) ∨ (f = "coo" ∧ readerBranch f = some .coo) ∨
      ((f = "csv" ∨ f = "tsv") ∧ readerBranch f = some .edgelist) := by
  rcases (validateFormat_iff f).1 h with h | h | h | h <;> subst h <;> decide

/-- C1 (evaluation at the failing input): `validateFormat` accepts exactly `mtx`, `coo`, `csv` and
`tsv`; it rejects `edgelist`, which `readGraphW` dispatches to the edge-list reader, so `main`
called with `-f edgelist` returns 1 without reading anything. -/
theorem validateFormat_rejects_edgelist :
    (∀ f, validateFormat f = true ↔ f = "mtx" ∨ f = "coo" ∨ f = "csv" ∨ f = "tsv") ∧
    validateFormat "edgelist" = false ∧
    readerBranch "edgelist" = some .edgelist ∧
    validateOptions { inputFile := "g.el", membershipFile := "c.txt", inputFormat := "edgelist" }
      = false ∧
    (main recordingLibrary noFiles ["prog", "-i", "g.el", "-m", "c.txt", "-f", "edgelist"]).exit
      = .code 1 ∧
    (main recordingLibrary noFiles ["prog", "-i", "g.el", "-m", "c.txt", "-f", "edgelist"]).steps
      = [] := by
  have hp : parseOptions ["prog", "-i", "g.el", "-m", "c.txt", "-f", "edgelist"]
      = some { inputFile := "g.el", membershipFile := "c.txt", inputFormat := "edgelist" } := by
    decide
  have hv : validateOptions
      { inputFile := "g.el", membershipFile := "c.txt", inputFormat := "edgelist" } = false := by
    decide
  refine ⟨validateFormat_iff, by decide, by decide, hv, ?_, ?_⟩ <;> simp [main, hp, hv]

/-! ## The driver -/

theorem main_of_valid {G : Type} (L : Library G) (fs : Files) (argv : List String) (o : Options)
    (hp : parseOptions argv = some o) (hh : o.help = false) (hv : validateOptions o = true) :
    main L fs argv = pipeline L fs o := by
  simp [main, hp, hh, hv]

/-- C2: whenever the parsed options ask for help (because `-h`, `--help` or an unrecognised key
was read in key position, or because `help` is set), or the input file name is empty, or the
membership file name is empty, or the format is rejected by `validateFormat` (in particular
when it is none of the five formats), `main` returns 1 and its run contains no graph read,
symmetrization, membership step, analysis or report. -/
theorem main_rejects_without_work {G : Type} (L : Library G) (fs : Files) (argv : List String)
    (o : Options) (hp : parseOptions argv = some o)
    (h : (∃ j ∈ (parseRun argv).keyReads, requestsHelp (argv.getD j "") = true) ∨
      o.help = true ∨ o.inputFile = "" ∨ o.membershipFile = "" ∨
      validateFormat o.inputFormat = false ∨ o.inputFormat ∉ supportedFormats) :
    (main L fs argv).exit = .code 1 ∧ ∀ s ∈ (main L fs argv).steps, s.isWork = false := by
  have hdone := (parseOptions_eq_some argv o).1 hp
  have h2 : o.help = true ∨ validateOptions o = false := by
    rcases h with h | h | h | h | h | h
    · exact Or.inl (parseLoop_help_requested argv _ 1 {} o hdone h)
    · exact Or.inl h
    · right
      cases hv : validateOptions o with
      | false => rfl
      | true => exact absurd h ((validateOptions_iff o).1 hv).1
    · right
      cases hv : validateOptions o with
      | false => rfl
      | true => exact absurd h ((validateOptions_iff o).1 hv).2.1
    · right
      cases hv : validateOptions o with
      | false => rfl
      | true => rw [((validateOptions_iff o).1 hv).2.2] at h; exact Bool.noConfusion h
    · right
      have h := validateFormat_false_of_unsupported _ h
      cases hv : validateOptions o with
      | false => rfl
      | true => rw [((validateOptions_iff o).1 hv).2.2] at h; exact Bool.noConfusion h
  by_cases hh : o.help = true
  · simp [main, hp, hh, Step.isWork]
  · rcases h2 with h2 | h2
    · exact absurd h2 hh
    · simp [main, hp, hh, h2]

/-- Witness of C2 on the arguments `-h`. -/
theorem main_rejects_without_work_witness :
    parseOptions ["prog", "-h"] = some { help := true } ∧
    (main recordingLibrary noFiles ["prog", "-h"]).exit = .code 1 ∧
    ∀ s ∈ (main recordingLibrary noFiles ["prog", "-h"]).steps, s.isWork = false :=
  ⟨by decide,
    main_rejects_without_work recordingLibrary noFiles ["prog", "-h"] { help := true }
      (by decide) (Or.inr (Or.inl rfl))⟩

/-- C3: on valid options, when the reader returns `g`, the run of `main` is the read step,
followed by the symmetrize step exactly when `symmetric` is not set, followed by the analysis
of `g` itself when `symmetric` is set and of `symmetrizeOmp(g)` otherwise; every membership
sizing and every analysis step of the run is on that graph. -/
theorem symmetrizer_skipped_iff_symmetric {G : Type} (L : Library G) (fs : Files)
    (argv : List String) (o : Options) (g : G)
    (hp : parseOptions argv = some o) (hh : o.help = false) (hv : validateOptions o = true)
    (hr : readGraphW L fs o.weighted L.empty o.inputFile o.inputFormat o.symmetric = .ok g) :
    main L fs argv =
      (analyse L fs o (if o.symmetric then g else L.symmetrizeOmp g)).after
        (.readGraph o.inputFile o.inputFormat o.weighted o.symmetric ::
          if o.symmetric then [] else [.symmetrize g]) ∧
    ((∃ y, Step.symmetrize y ∈ (main L fs argv).steps) ↔ o.symmetric = false) ∧
    (∃ n, Step.sizeMembership (if o.symmetric then g else L.symmetrizeOmp g) n
      ∈ (main L fs argv).steps) ∧
    (∀ y n, Step.sizeMembership y n ∈ (main L fs argv).steps →
      y = (if o.symmetric then g else L.symmetrizeOmp g) ∧ n = L.span y) ∧
    (∀ y m, Step.communities y m ∈ (main L fs argv).steps →
      y = if o.symmetric then g else L.symmetrizeOmp g) ∧
    (∀ y m, Step.communitiesDisconnected y m ∈ (main L fs argv).steps →
      y = if o.symmetric then g else L.symmetrizeOmp g) := by
  rw [main_of_valid L fs argv o hp hh hv]
  unfold pipeline
  simp only [hr]
  cases hs : o.symmetric <;>
    cases hm : L.readVectorW o.membershipKeyed
      (List.replicate (L.span (if o.symmetric then g else L.symmetrizeOmp g)) 0)
      (fs o.membershipFile) o.membershipStart <;>
    simp [hs] at hm <;>
    simp [analyse, Run.after, hm]

/-- Witness of C3 on the arguments `-i g.mtx -m c.txt -s`: the graph analysed is the one the
reader returned. -/
theorem symmetrizer_skipped_iff_symmetric_witness :
    parseOptions ["prog", "-i", "g.mtx", "-m", "c.txt", "-s"]
      = some { inputFile := "g.mtx", membershipFile := "c.txt", symmetric := true } ∧
    validateOptions { inputFile := "g.mtx", membershipFile := "c.txt", symmetric := true }
      = true ∧
    readGraphW recordingLibrary noFiles false recordingLibrary.empty "g.mtx" "mtx" true
      = .ok [none] ∧
    ∀ y m, Step.communities y m ∈
        (main recordingLibrary noFiles ["prog", "-i", "g.mtx", "-m", "c.txt", "-s"]).steps →
      y = [none] :=
  ⟨by decide, by decide, by simp [readGraphW, readerBranch, recordingLibrary, noFiles],
    (symmetrizer_skipped_iff_symmetric recordingLibrary noFiles
      ["prog", "-i", "g.mtx", "-m", "c.txt", "-s"]
      { inputFile := "g.mtx", membershipFile := "c.txt", symmetric := true } [none]
      (by decide) rfl (by decide)
      (by simp [readGraphW, readerBranch, recordingLibrary, noFiles])).2.2.2.2.1⟩

theorem readGraphW_of_valid_format {G : Type} (L : Library G) (fs : Files) (weighted : Bool)
    (a : G) (file format : String) (symmetric : Bool) (hf : validateFormat format = true) :
    (readerBranch format = some .mtx ∧
      readGraphW L fs weighted a file format symmetric =
        L.readGraphMtxFormatOmpW weighted a (fs file)) ∨
    (readerBranch format = some .coo ∧
      readGraphW L fs weighted a file format symmetric =
        L.readGraphCooFormatOmpW weighted a (fs file) symmetric) ∨
    (readerBranch format = some .edgelist ∧
      readGraphW L fs weighted a file format symmetric =
        L.readGraphEdgelistFormatOmpW weighted a (fs file) symmetric) := by
  rcases readerBranch_of_valid _ hf with ⟨_, h⟩ | ⟨_, h⟩ | ⟨_, h⟩
  · exact Or.inl ⟨h, by simp [readGraphW, h]⟩
  · exact Or.inr (Or.inl ⟨h, by simp [readGraphW, h]⟩)
  · exact Or.inr (Or.inr ⟨h, by simp [readGraphW, h]⟩)

/-- C8: on options accepted by `validateOptions`, `readGraphW` takes one of its three reader
branches (`mtx`, `coo`, or `edgelist`/`csv`/`tsv`) and returns what that reader returns; the
final `else`, which throws "Unknown input format", is not taken. -/
theorem readGraphW_never_unknown_format {G : Type} (L : Library G) (fs : Files) (o : Options)
    (a : G) (hv : validateOptions o = true) :
    (readerBranch o.inputFormat = some .mtx ∧
      readGraphW L fs o.weighted a o.inputFile o.inputFormat o.symmetric =
        L.readGraphMtxFormatOmpW o.weighted a (fs o.inputFile)) ∨
    (readerBranch o.inputFormat = some .coo ∧
      readGraphW L fs o.weighted a o.inputFile o.inputFormat o.symmetric =
        L.readGraphCooFormatOmpW o.weighted a (fs o.inputFile) o.symmetric) ∨
    (readerBranch o.inputFormat = some .edgelist ∧
      readGraphW L fs o.weighted a o.inputFile o.inputFormat o.symmetric =
        L.readGraphEdgelistFormatOmpW o.weighted a (fs o.inputFile) o.symmetric) :=
  readGraphW_of_valid_format L fs o.weighted a o.inputFile o.inputFormat o.symmetric
    ((validateOptions_iff o).1 hv).2.2

/-- Witness of C8 on the options of `-i g.csv -m c.txt -f csv`. -/
theorem readGraphW_never_unknown_format_witness :
    validateOptions { inputFile := "g.csv", membershipFile := "c.txt", inputFormat := "csv" }
      = true ∧
    ((readerBranch "csv" = some .mtx ∧
      readGraphW recordingLibrary noFiles false [] "g.csv" "csv" false =
        recordingLibrary.readGraphMtxFormatOmpW false [] (noFiles "g.csv")) ∨
    (readerBranch "csv" = some .coo ∧
      readGraphW recordingLibrary noFiles false [] "g.csv" "csv" false =
        recordingLibrary.readGraphCooFormatOmpW false [] (noFiles "g.csv") false) ∨
    (readerBranch "csv" = some .edgelist ∧
      readGraphW recordingLibrary noFiles false [] "g.csv" "csv" false =
        recordingLibrary.readGraphEdgelistFormatOmpW false [] (noFiles "g.csv") false)) :=
  ⟨by decide,
    readGraphW_never_unknown_format recordingLibrary noFiles
      { inputFile := "g.csv", membershipFile := "c.txt", inputFormat := "csv" } []
      (by decide)⟩

theorem analyse_symmetric_irrelevant {G : Type} (L : Library G) (fs : Files) (o : Options)
    (b : Bool) (x : G) : analyse L fs { o with symmetric := b } x = analyse L fs o x := rfl

/-- C10: `readGraphW` with format `mtx` returns the same result for `symmetric = true` and
`symmetric = false` (the flag is not an argument of the Matrix Market reader), while for
`coo`, `edgelist`, `csv` and `tsv` the flag is passed on unchanged; so with `mtx`, when the
reader returns `g`, the run with `-s` is the read step followed by the analysis of `g` and the
run without `-s` is the read step, `symmetrizeOmp(g)` and the analysis of `symmetrizeOmp(g)`. -/
theorem mtx_reader_ignores_symmetric {G : Type} (L : Library G) (fs : Files) :
    (∀ weighted a file,
      readGraphW L fs weighted a file "mtx" true = readGraphW L fs weighted a file "mtx" false ∧
      readGraphW L fs weighted a file "mtx" true =
        L.readGraphMtxFormatOmpW weighted a (fs file)) ∧
    (∀ weighted a file symmetric,
      readGraphW L fs weighted a file "coo" symmetric =
        L.readGraphCooFormatOmpW weighted a (fs file) symmetric) ∧
    (∀ weighted a file symmetric, ∀ format ∈ ["edgelist", "csv", "tsv"],
      readGraphW L fs weighted a file format symmetric =
        L.readGraphEdgelistFormatOmpW weighted a (fs file) symmetric) ∧
    (∀ (o : Options) (g : G), o.inputFormat = "mtx" →
      L.readGraphMtxFormatOmpW o.weighted L.empty (fs o.inputFile) = .ok g →
      pipeline L fs { o with symmetric := true } =
        (analyse L fs o g).after [.readGraph o.inputFile "mtx" o.weighted true] ∧
      pipeline L fs { o with symmetric := false } =
        (analyse L fs o (L.symmetrizeOmp g)).after
          [.readGraph o.inputFile "mtx" o.weighted false, .symmetrize g]) := by
  have hmtx : readerBranch "mtx" = some .mtx := by decide
  have hcoo : readerBranch "coo" = some .coo := by decide
  refine ⟨?_, ?_, ?_, ?_⟩
  · intro weighted a file
    simp [readGraphW, hmtx]
  · intro weighted a file symmetric
    simp [readGraphW, hcoo]
  · intro weighted a file symmetric format hf
    have hb : readerBranch format = some .edgelist := by
      simp only [List.mem_cons, List.mem_singleton, List.not_mem_nil, or_false] at hf
      rcases hf with h | h | h <;> subst h <;> decide
    simp [readGraphW, hb]
  · intro o g hf hr
    constructor
    · simp only [pipeline, readGraphW, hf, hmtx, hr, if_true]
      rfl
    · simp only [pipeline, readGraphW, hf, hmtx, hr]
      rfl

/-- Witness of C10 on the options of `-i g.mtx -m c.txt`. -/
theorem mtx_reader_ignores_symmetric_witness :
    recordingLibrary.readGraphMtxFormatOmpW false recordingLibrary.empty (noFiles "g.mtx")
      = .ok [none] ∧
    pipeline recordingLibrary noFiles
        { inputFile := "g.mtx", membershipFile := "c.txt", symmetric := true } =
      (analyse recordingLibrary noFiles { inputFile := "g.mtx", membershipFile := "c.txt" }
        [none]).after [.readGraph "g.mtx" "mtx" false true] ∧
    pipeline recordingLibrary noFiles
        { inputFile := "g.mtx", membershipFile := "c.txt", symmetric := false } =
      (analyse recordingLibrary noFiles { inputFile := "g.mtx", membershipFile := "c.txt" }
        (recordingLibrary.symmetrizeOmp [none])).after
        [.readGraph "g.mtx" "mtx" false false, .symmetrize [none]] :=
  ⟨rfl,
    (mtx_reader_ignores_symmetric recordingLibrary noFiles).2.2.2
      { inputFile := "g.mtx", membershipFile := "c.txt" } [none] rfl rfl⟩

/-- C7 (counterexample): with no file that can be opened and the arguments
`-i g.mtx -m c.txt`, the options are valid, `readGraphW` does not fail: it returns the graph
of the reader, which was handed the unopened stream; `main` goes on to the analysis, prints
its report and returns 0. -/
theorem unreadable_file_not_fatal :
    parseOptions ["prog", "-i", "g.mtx", "-m", "c.txt"]
      = some { inputFile := "g.mtx", membershipFile := "c.txt" } ∧
    validateOptions { inputFile := "g.mtx", membershipFile := "c.txt" } = true ∧
    noFiles "g.mtx" = none ∧ noFiles "c.txt" = none ∧
    readGraphW recordingLibrary noFiles false recordingLibrary.empty "g.mtx" "mtx" false
      = .ok [none] ∧
    (main recordingLibrary noFiles ["prog", "-i", "g.mtx", "-m", "c.txt"]).exit = .code 0 ∧
    (main recordingLibrary noFiles ["prog", "-i", "g.mtx", "-m", "c.txt"]).steps =
      [.readGraph "g.mtx" "mtx" false false, .symmetrize [none], .sizeMembership [none] 0,
       .readMembership "c.txt" false 0, .communities [none] [],
       .communitiesDisconnected [none] [], .report 0 0] := by
  have hp : parseOptions ["prog", "-i", "g.mtx", "-m", "c.txt"]
      = some { inputFile := "g.mtx", membershipFile := "c.txt" } := by decide
  have hv : validateOptions { inputFile := "g.mtx", membershipFile := "c.txt" } = true := by
    decide
  have hb : readerBranch "mtx" = some .mtx := by decide
  refine ⟨hp, hv, rfl, rfl, ?_, ?_, ?_⟩
  · simp [readGraphW, hb, recordingLibrary, noFiles]
  · simp [main, hp, hv, pipeline, analyse, Run.after, readGraphW, hb, recordingLibrary, noFiles]
  · simp [main, hp, hv, pipeline, analyse, Run.after, readGraphW, hb, recordingLibrary, noFiles]

/-- C7 (as amended): `main.cxx` never tests whether a file could be opened.  On valid options,
when the input file cannot be opened, `readGraphW` returns exactly what the reader of the
format returns on the unopened stream, and `main` ends with an uncaught exception only if that
reader throws; when the membership file cannot be opened and the graph was read, `main` calls
`readVectorW` on the unopened stream, ends with that call's exception before any report if it
throws, and otherwise reports the counts and returns 0. -/
theorem unopened_stream_handed_to_reader {G : Type} (L : Library G) (fs : Files)
    (argv : List String) (o : Options)
    (hp : parseOptions argv = some o) (hh : o.help = false) (hv : validateOptions o = true) :
    (fs o.inputFile = none →
      (∀ a,
        readGraphW L fs o.weighted a o.inputFile o.inputFormat o.symmetric =
          L.readGraphMtxFormatOmpW o.weighted a none ∨
        readGraphW L fs o.weighted a o.inputFile o.inputFormat o.symmetric =
          L.readGraphCooFormatOmpW o.weighted a none o.symmetric ∨
        readGraphW L fs o.weighted a o.inputFile o.inputFormat o.symmetric =
          L.readGraphEdgelistFormatOmpW o.weighted a none o.symmetric) ∧
      ∀ what, readGraphW L fs o.weighted L.empty o.inputFile o.inputFormat o.symmetric
          = .error what →
        (main L fs argv).exit = .uncaught what) ∧
    (fs o.membershipFile = none → ∀ g,
      readGraphW L fs o.weighted L.empty o.inputFile o.inputFormat o.symmetric = .ok g →
      (∀ what, L.readVectorW o.membershipKeyed
          (List.replicate (L.span (if o.symmetric then g else L.symmetrizeOmp g)) 0) none
          o.membershipStart = .error what →
        (main L fs argv).exit = .uncaught what ∧
        ∀ ncom ndis, Step.report ncom ndis ∉ (main L fs argv).steps) ∧
      (∀ m, L.readVectorW o.membershipKeyed
          (List.replicate (L.span (if o.symmetric then g else L.symmetrizeOmp g)) 0) none
          o.membershipStart = .ok m →
        (main L fs argv).exit = .code 0 ∧
        Step.report (L.communities (if o.symmetric then g else L.symmetrizeOmp g) m).length
          (L.countValue
            (L.communitiesDisconnectedOmp (if o.symmetric then g else L.symmetrizeOmp g) m) 1)
          ∈ (main L fs argv).steps)) := by
  rw [main_of_valid L fs argv o hp hh hv]
  constructor
  · intro hin
    constructor
    · intro a
      rcases readGraphW_of_valid_format L fs o.weighted a o.inputFile o.inputFormat o.symmetric
        ((validateOptions_iff o).1 hv).2.2 with ⟨_, h⟩ | ⟨_, h⟩ | ⟨_, h⟩
      · left; rw [h, hin]
      · right; left; rw [h, hin]
      · right; right; rw [h, hin]
    · intro what he
      simp [pipeline, he]
  · intro hm g hr
    unfold pipeline
    simp only [hr]
    constructor
    · intro what he
      cases hs : o.symmetric <;> simp only [hs, Bool.false_eq_true, if_false, if_true] at he ⊢ <;>
        simp [analyse, Run.after, hm, he]
    · intro m hok
      cases hs : o.symmetric <;> simp only [hs, Bool.false_eq_true, if_false, if_true] at hok ⊢ <;>
        simp [analyse, Run.after, hm, hok]

/-- Witness of C7 as amended, on the arguments `-i g.mtx -m c.txt` with no file that can be
opened. -/
theorem unopened_stream_handed_to_reader_witness :
    parseOptions ["prog", "-i", "g.mtx", "-m", "c.txt"]
      = some { inputFile := "g.mtx", membershipFile := "c.txt" } ∧
    validateOptions { inputFile := "g.mtx", membershipFile := "c.txt" } = true ∧
    noFiles "g.mtx" = none ∧
    (readGraphW recordingLibrary noFiles false [] "g.mtx" "mtx" false =
        recordingLibrary.readGraphMtxFormatOmpW false [] none ∨
      readGraphW recordingLibrary noFiles false [] "g.mtx" "mtx" false =
        recordingLibrary.readGraphCooFormatOmpW false [] none false ∨
      readGraphW recordingLibrary noFiles false [] "g.mtx" "mtx" false =
        recordingLibrary.readGraphEdgelistFormatOmpW false [] none false) :=
  ⟨by decide, by decide, rfl,
    ((unopened_stream_handed_to_reader recordingLibrary noFiles
      ["prog", "-i", "g.mtx", "-m", "c.txt"]
      { inputFile := "g.mtx", membershipFile := "c.txt" } (by decide) rfl (by decide)).1 rfl).1
      []⟩

/-! ## The community index -/

theorem communityInsert_keys (c u : Nat) (index : CommunityIndex) :
    (communityInsert c u index).map Prod.fst =
      if c ∈ index.map Prod.fst then index.map Prod.fst else index.map Prod.fst ++ [c] := by
  induction index with
  | nil => simp [communityInsert]
  | cons e rest ih =>
    obtain ⟨d, us⟩ := e
    by_cases hd : d = c
    · simp [communityInsert, hd]
    · have hd' : ¬ c = d := fun h => hd h.symm
      by_cases hc : c ∈ rest.map Prod.fst
      · simp only [communityInsert, hd, if_false, List.map_cons, ih, hc, if_true,
          List.mem_cons, or_true]
      · simp only [communityInsert, hd, if_false, List.map_cons, ih, hc, List.mem_cons, hd',
          or_self, List.cons_append]

theorem communityInsert_mem (c u : Nat) (index : CommunityIndex)
    (hn : (index.map Prod.fst).Nodup) (d : Nat) (ms : List Nat)
    (h : (d, ms) ∈ communityInsert c u index) :
    (d ≠ c ∧ (d, ms) ∈ index) ∨
      (d = c ∧ ∃ ms0, ms = ms0 ++ [u] ∧
        ((c, ms0) ∈ index ∨ (ms0 = [] ∧ c ∉ index.map Prod.fst))) := by
  induction index with
  | nil =>
    simp only [communityInsert, List.mem_singleton, Prod.mk.injEq] at h
    exact Or.inr ⟨h.1, [], by simp [h.2], Or.inr ⟨rfl, by simp⟩⟩
  | cons e rest ih =>
    obtain ⟨e1, us⟩ := e
    simp only [List.map_cons, List.nodup_cons] at hn
    by_cases hd : e1 = c
    · subst hd
      simp only [communityInsert, if_true, List.mem_cons, Prod.mk.injEq] at h
      rcases h with ⟨h1, h2⟩ | h
      · exact Or.inr ⟨h1, us, h2, Or.inl (List.mem_cons_self _ _)⟩
      · left
        refine ⟨?_, List.mem_cons_of_mem _ h⟩
        intro hde
        apply hn.1
        rw [← hde]
        exact List.mem_map.2 ⟨(d, ms), h, rfl⟩
    · simp only [communityInsert, hd, if_false, List.mem_cons, Prod.mk.injEq] at h
      rcases h with ⟨h1, h2⟩ | h
      · left
        subst h1 h2
        exact ⟨hd, List.mem_cons_self _ _⟩
      · rcases ih hn.2 h with ⟨h1, h2⟩ | ⟨h1, ms0, h2, h3⟩
        · exact Or.inl ⟨h1, List.mem_cons_of_mem _ h2⟩
        · right
          refine ⟨h1, ms0, h2, ?_⟩
          rcases h3 with h3 | ⟨h3, h4⟩
          · exact Or.inl (List.mem_cons_of_mem _ h3)
          · right
            refine ⟨h3, ?_⟩
            simp only [List.map_cons, List.mem_cons, not_or]
            exact ⟨fun h => hd h.symm, h4⟩

theorem getElem?_append_singleton (pre : List Nat) (c v d : Nat) :
    (pre ++ [c])[v]? = some d ↔ pre[v]? = some d ∨ (v = pre.length ∧ c = d) := by
  rcases Nat.lt_trichotomy v pre.length with h | h | h
  · rw [List.getElem?_append_left h]
    constructor
    · intro h1; exact Or.inl h1
    · rintro (h1 | ⟨h1, _⟩)
      · exact h1
      · omega
  · subst h
    simp
  · rw [List.getElem?_eq_none (by simp; omega), List.getElem?_eq_none (by omega)]
    constructor
    · intro h1; exact Option.noConfusion h1
    · rintro (h1 | ⟨h1, _⟩)
      · exact Option.noConfusion h1
      · omega

theorem IndexOf.insert (pre : List Nat) (index : CommunityIndex) (c : Nat)
    (h : IndexOf pre index) : IndexOf (pre ++ [c]) (communityInsert c pre.length index) := by
  obtain ⟨hn, hk, hm⟩ := h
  refine ⟨?_, ?_, ?_⟩
  · rw [communityInsert_keys]
    split_ifs with hc
    · exact hn
    · exact List.Nodup.append hn (List.nodup_singleton c) (by simpa using hc)
  · intro d
    rw [communityInsert_keys]
    split_ifs with hc
    · rw [hk, List.mem_append, List.mem_singleton]
      constructor
      · intro h; exact Or.inl h
      · rintro (h | h)
        · exact h
        · rw [h]; exact (hk c).1 hc
    · rw [List.mem_append, List.mem_append, hk]
  · intro d ms hmem
    rcases communityInsert_mem c pre.length index hn d ms hmem with
      ⟨hdc, hin⟩ | ⟨hdc, ms0, hms, hin | ⟨hnil, hnot⟩⟩
    · obtain ⟨h1, h2⟩ := hm d ms hin
      refine ⟨h1, fun v => ?_⟩
      rw [h2, getElem?_append_singleton]
      constructor
      · intro h; exact Or.inl h
      · rintro (h | ⟨_, h⟩)
        · exact h
        · exact absurd h.symm hdc
    · subst hdc hms
      obtain ⟨h1, h2⟩ := hm d ms0 hin
      have hlen : pre.length ∉ ms0 := fun hc => by
        have := getElem?_some_lt _ _ _ ((h2 _).1 hc)
        omega
      refine ⟨List.Nodup.append h1 (List.nodup_singleton _) (by simpa using hlen), fun v => ?_⟩
      rw [List.mem_append, List.mem_singleton, h2, getElem?_append_singleton]
      simp
    · subst hdc hms hnil
      refine ⟨by simp, fun v => ?_⟩
      rw [getElem?_append_singleton]
      have hno : ¬ pre[v]? = some d := fun hc => by
        apply hnot
        rw [hk]
        exact List.getElem?_mem hc
      simp [hno]

theorem IndexOf.from (rest : List Nat) :
    ∀ (pre : List Nat) (index : CommunityIndex), IndexOf pre index →
      IndexOf (pre ++ rest) (communityIndexFrom pre.length rest index) := by
  induction rest with
  | nil => intro pre index h; simpa [communityIndexFrom] using h
  | cons c rest ih =>
    intro pre index h
    have := ih (pre ++ [c]) _ (h.insert pre index c)
    simpa [communityIndexFrom] using this

theorem communities_indexOf {W : Type} (x : GraphStore W) (membership : List Nat) :
    IndexOf membership (communities x membership) := by
  have h0 : IndexOf [] [] := ⟨by simp, by simp, by simp⟩
  simpa [communities] using IndexOf.from membership [] [] h0

theorem communities_length {W : Type} (x : GraphStore W) (membership : List Nat) :
    (communities x membership).length = membership.toFinset.card := by
  obtain ⟨hn, hk, _⟩ := communities_indexOf x membership
  have h1 : ((communities x membership).map Prod.fst).toFinset = membership.toFinset := by
    ext c; simp only [List.mem_toFinset]; exact hk c
  rw [← h1, List.toFinset_card_of_nodup hn, List.length_map]

/-! ## The graph store and the symmetrizer -/

theorem getD_append_replicate_nil {α : Type} (l : List (List α)) (k a : Nat) :
    (l ++ List.replicate k []).getD a [] = l.getD a [] := by
  simp only [List.getD_eq_getElem?_getD]
  by_cases h : a < l.length
  · rw [List.getElem?_append_left h]
  · rw [List.getElem?_append_right (by omega), List.getElem?_eq_none (l := l) (by omega)]
    by_cases h2 : a - l.length < k
    · rw [List.getElem?_eq_getElem (by simpa using h2)]
      simp
    · rw [List.getElem?_eq_none (by simp; omega)]

theorem modifyAt_length {α : Type} (f : α → α) (n : Nat) (l : List α) :
    (modifyAt f n l).length = l.length := by
  induction l generalizing n with
  | nil => cases n <;> rfl
  | cons a l ih => cases n with
    | zero => rfl
    | succ n => simp [modifyAt, ih]

theorem modifyAt_getD_ne {α : Type} (f : α → α) (n a : Nat) (l : List α) (d : α) (h : a ≠ n) :
    (modifyAt f n l).getD a d = l.getD a d := by
  induction l generalizing n a with
  | nil => cases n <;> rfl
  | cons b l ih =>
    cases n with
    | zero =>
      cases a with
      | zero => exact absurd rfl h
      | succ a => simp [modifyAt]
    | succ n =>
      cases a with
      | zero => simp [modifyAt]
      | succ a =>
        have := ih n a (by omega)
        simpa [modifyAt] using this

theorem modifyAt_getD_eq {α : Type} (f : α → α) (n : Nat) (l : List α) (d : α)
    (h : n < l.length) : (modifyAt f n l).getD n d = f (l.getD n d) := by
  induction l generalizing n with
  | nil => simp at h
  | cons b l ih =>
    cases n with
    | zero => simp [modifyAt]
    | succ n =>
      have := ih n (by simpa using h)
      simpa [modifyAt] using this

theorem upsert_targets {W : Type} (v : Nat) (w : W) (l : List (Nat × W)) (b : Nat) :
    b ∈ (upsert v w l).map Prod.fst ↔ b = v ∨ b ∈ l.map Prod.fst := by
  induction l with
  | nil => simp [upsert]
  | cons e rest ih =>
    obtain ⟨t, w0⟩ := e
    by_cases ht : t = v
    · subst ht
      simp [upsert]
    · simp only [upsert, ht, if_false, List.map_cons, List.mem_cons, ih]
      tauto

theorem addVertex_outNeighbors {W : Type} (g : GraphStore W) (id a : Nat) :
    (g.addVertex id).outNeighbors a = g.outNeighbors a := by
  simp only [GraphStore.outNeighbors, GraphStore.addVertex]
  exact getD_append_replicate_nil _ _ _

theorem addVertex_span {W : Type} (g : GraphStore W) (id : Nat) :
    (g.addVertex id).span = max g.span (id + 1) := by
  simp only [GraphStore.span, GraphStore.addVertex, List.length_append, List.length_replicate]
  omega

theorem addEdge_span {W : Type} (g : GraphStore W) (u v : Nat) (w : W) :
    (g.addEdge u v w).span = max g.span (max u v + 1) := by
  have h1 := addVertex_span (g.addVertex u) v
  have h2 := addVertex_span g u
  simp only [GraphStore.span] at h1 h2
  simp only [GraphStore.span, GraphStore.addEdge, modifyAt_length, h1, h2]
  omega

theorem addEdge_targets {W : Type} (g : GraphStore W) (u v : Nat) (w : W) (a b : Nat) :
    b ∈ (g.addEdge u v w).targets a ↔ (a = u ∧ b = v) ∨ b ∈ g.targets a := by
  have hlen : u < ((g.addVertex u).addVertex v).adj.length := by
    have h1 := addVertex_span (g.addVertex u) v
    have h2 := addVertex_span g u
    simp only [GraphStore.span] at h1 h2
    rw [h1, h2]; omega
  have hout : ∀ a, ((g.addVertex u).addVertex v).adj.getD a [] = g.adj.getD a [] := fun a => by
    have h1 := addVertex_outNeighbors (g.addVertex u) v a
    have h2 := addVertex_outNeighbors g u a
    simp only [GraphStore.outNeighbors] at h1 h2
    rw [h1, h2]
  simp only [GraphStore.targets, GraphStore.outNeighbors, GraphStore.addEdge]
  by_cases ha : a = u
  · subst ha
    rw [modifyAt_getD_eq _ _ _ _ hlen, upsert_targets, hout]
    simp
  · rw [modifyAt_getD_ne _ _ _ _ _ ha, hout]
    simp [ha]

theorem hasEdge_iff {W : Type} (g : GraphStore W) (u v : Nat) :
    g.hasEdge u v = true ↔ v ∈ g.targets u := by
  simp [GraphStore.hasEdge]

theorem ofSpan_targets {W : Type} (n a : Nat) :
    (GraphStore.ofSpan n : GraphStore W).targets a = [] := by
  simp only [GraphStore.targets, GraphStore.outNeighbors, GraphStore.ofSpan,
    List.getD_eq_getElem?_getD]
  by_cases h : a < n
  · rw [List.getElem?_eq_getElem (by simpa using h)]
    simp
  · rw [List.getElem?_eq_none (by simp; omega)]
    simp

theorem symmetrizeStep_symmetric {W : Type} (y : GraphStore W) (e : Nat × Nat × W)
    (h : ∀ a b, b ∈ y.targets a ↔ a ∈ y.targets b) :
    ∀ a b, b ∈ (symmetrizeStep y e).targets a ↔ a ∈ (symmetrizeStep y e).targets b := by
  intro a b
  unfold symmetrizeStep
  split_ifs
  · exact h a b
  · simp only [addEdge_targets, h a b]
    tauto

theorem foldl_symmetrizeStep_symmetric {W : Type} (es : List (Nat × Nat × W)) :
    ∀ y : GraphStore W, (∀ a b, b ∈ y.targets a ↔ a ∈ y.targets b) →
      ∀ a b, b ∈ (es.foldl symmetrizeStep y).targets a ↔
        a ∈ (es.foldl symmetrizeStep y).targets b := by
  induction es with
  | nil => intro y h; simpa using h
  | cons e es ih =>
    intro y h
    simpa using ih _ (symmetrizeStep_symmetric y e h)

/-- The output of the Symmetrizer has the reciprocal of each of its edges. -/
theorem symmetrizeOmp_symmetric {W : Type} (x : GraphStore W) (a b : Nat) :
    b ∈ (symmetrizeOmp x).targets a ↔ a ∈ (symmetrizeOmp x).targets b := by
  unfold symmetrizeOmp
  apply foldl_symmetrizeStep_symmetric
  intro a b
  simp [ofSpan_targets]

/-! ## The connectivity analysis -/

theorem mem_internalTargets {W : Type} (x : GraphStore W) (membership : List Nat) (c u v : Nat) :
    v ∈ internalTargets x membership c u ↔ InternalEdge x membership c u v := by
  simp only [internalTargets, InternalEdge, List.mem_filter, Bool.and_eq_true,
    decide_eq_true_eq]
  tauto

theorem traverse_sound {W : Type} (x : GraphStore W) (membership : List Nat) (c s : Nat) :
    ∀ (fuel : Nat) (queue visited : List Nat), visited.Nodup →
      (∀ a ∈ visited, Reaches x membership c s a ∧ membership[a]? = some c) →
      (∀ a ∈ queue, a ∈ visited) →
      (traverse x membership c fuel queue visited).Nodup ∧
        ∀ a ∈ traverse x membership c fuel queue visited,
          Reaches x membership c s a ∧ membership[a]? = some c := by
  intro fuel
  induction fuel with
  | zero => intro queue visited hn hv _; exact ⟨by simpa [traverse] using hn, by simpa [traverse] using hv⟩
  | succ fuel ih =>
    intro queue visited hn hv hq
    cases queue with
    | nil => exact ⟨by simpa [traverse] using hn, by simpa [traverse] using hv⟩
    | cons u queue =>
      simp only [traverse]
      have hfresh : ∀ a, a ∈ ((internalTargets x membership c u).filter
          fun v => !visited.contains v).dedup →
          InternalEdge x membership c u a ∧ a ∉ visited := by
        intro a ha
        rw [List.mem_dedup, List.mem_filter] at ha
        exact ⟨(mem_internalTargets x membership c u a).1 ha.1, by simpa using ha.2⟩
      apply ih
      · refine List.Nodup.append hn (List.nodup_dedup _) ?_
        intro a ha1 ha2
        exact (hfresh a ha2).2 ha1
      · intro a ha
        rcases List.mem_append.1 ha with ha | ha
        · exact hv a ha
        · have he := (hfresh a ha).1
          exact ⟨Relation.ReflTransGen.tail (hv u (hq u (List.mem_cons_self _ _))).1 he, he.2.1⟩
      · intro a ha
        rcases List.mem_append.1 ha with ha | ha
        · exact List.mem_append_left _ (hq a (List.mem_cons_of_mem _ ha))
        · exact List.mem_append_right _ ha

theorem reaches_symm {W : Type} (x : GraphStore W) (membership : List Nat) (c : Nat)
    (hsym : ∀ a b, b ∈ x.targets a ↔ a ∈ x.targets b) (a b : Nat)
    (h : Reaches x membership c a b) : Reaches x membership c b a := by
  have hs : Symmetric (InternalEdge x membership c) := by
    intro p q hpq
    exact ⟨hpq.2.1, hpq.1, (hsym p q).1 hpq.2.2⟩
  exact Relation.ReflTransGen.symmetric hs h

/-- In a graph that has the reciprocal of each edge, a community with two members of which
one cannot be reached from the other through internal edges is found disconnected. -/
theorem communityDisconnected_of_unreachable {W : Type} (x : GraphStore W)
    (membership : List Nat) (c : Nat) (ms : List Nat) (u v : Nat)
    (hsym : ∀ a b, b ∈ x.targets a ↔ a ∈ x.targets b)
    (hn : ms.Nodup) (hms : ∀ a, a ∈ ms ↔ membership[a]? = some c)
    (hu : membership[u]? = some c) (hv : membership[v]? = some c)
    (hnr : ¬ Reaches x membership c u v) :
    communityDisconnected x membership (c, ms) = true := by
  have huv : u ≠ v := fun h => hnr (h ▸ Relation.ReflTransGen.refl)
  have hum : u ∈ ms := (hms u).2 hu
  have hvm : v ∈ ms := (hms v).2 hv
  match ms, hn, hms, hum, hvm with
  | [], _, _, hum, _ => simp at hum
  | [a], _, _, hum, hvm =>
    simp only [List.mem_singleton] at hum hvm
    exact absurd (hum.trans hvm.symm) huv
  | s :: t :: rest, hn, hms, hum, hvm =>
    simp only [communityDisconnected, decide_eq_true_eq]
    by_contra hlen
    have hs : membership[s]? = some c := (hms s).1 (List.mem_cons_self _ _)
    obtain ⟨hrn, hr⟩ := traverse_sound x membership c s (s :: t :: rest).length [s] [s]
      (List.nodup_singleton s)
      (by
        intro a ha
        rw [List.mem_singleton] at ha
        subst ha
        exact ⟨Relation.ReflTransGen.refl, hs⟩)
      (fun a ha => ha)
    have hsub : traverse x membership c (s :: t :: rest).length [s] [s] ⊆ s :: t :: rest :=
      fun a ha => (hms a).2 (hr a ha).2
    have hperm := (List.subperm_of_subset hrn hsub).perm_of_length_le (by omega)
    have hsu := (hr u (hperm.mem_iff.2 hum)).1
    have hsv := (hr v (hperm.mem_iff.2 hvm)).1
    exact hnr (Relation.ReflTransGen.trans (reaches_symm x membership c hsym s u hsu) hsv)

theorem communitiesDisconnectedOmp_length {W : Type} (x : GraphStore W)
    (membership : List Nat) :
    (communitiesDisconnectedOmp x membership).length = (communities x membership).length := by
  simp [communitiesDisconnectedOmp]

theorem countValue_le_communities {W : Type} (x : GraphStore W) (membership : List Nat) :
    countValue (communitiesDisconnectedOmp x membership) 1 ≤
      (communities x membership).length := by
  rw [← communitiesDisconnectedOmp_length]
  exact List.count_le_length _ _

theorem flagged_of_unreachable {W : Type} (x : GraphStore W) (membership : List Nat)
    (c u v : Nat) (hu : membership[u]? = some c) (hv : membership[v]? = some c)
    (hnr : ¬ Reaches (symmetrizeOmp x) membership c u v) :
    (c, 1) ∈ List.zip ((communities (symmetrizeOmp x) membership).map Prod.fst)
      (communitiesDisconnectedOmp (symmetrizeOmp x) membership) := by
  obtain ⟨_, hk, hm⟩ := communities_indexOf (symmetrizeOmp x) membership
  have hc : c ∈ (communities (symmetrizeOmp x) membership).map Prod.fst :=
    (hk c).2 (List.getElem?_mem hu)
  obtain ⟨⟨c1, ms⟩, hin, hc1⟩ := List.mem_map.1 hc
  simp only at hc1
  subst hc1
  obtain ⟨hn, hms⟩ := hm c1 ms hin
  have hd := communityDisconnected_of_unreachable (symmetrizeOmp x) membership c1 ms u v
    (symmetrizeOmp_symmetric x) hn hms hu hv hnr
  unfold communitiesDisconnectedOmp
  rw [List.zip_map', List.mem_map]
  exact ⟨(c1, ms), hin, by simp [hd]⟩

/-! ## The report of the driver over the model -/

theorem main_report {G : Type} (L : Library G) (fs : Files) (argv : List String)
    (ncom ndis : Nat) (h : Step.report ncom ndis ∈ (main L fs argv).steps) :
    ∃ x m, Step.communities x m ∈ (main L fs argv).steps ∧
      ncom = (L.communities x m).length ∧
      ndis = L.countValue (L.communitiesDisconnectedOmp x m) 1 := by
  unfold main at h ⊢
  cases hp : parseOptions argv with
  | none => simp [hp] at h
  | some o =>
    simp only [hp] at h ⊢
    by_cases hh : o.help = true
    · simp [hh] at h
    · by_cases hv : validateOptions o = true
      · simp only [hh, hv, Bool.not_true, if_false] at h ⊢
        unfold pipeline at h ⊢
        cases hr : readGraphW L fs o.weighted L.empty o.inputFile o.inputFormat o.symmetric with
        | error e => simp [hr] at h
        | ok g =>
          simp only [hr] at h ⊢
          by_cases hs : o.symmetric = true
          · simp only [hs, if_true] at h ⊢
            unfold analyse at h ⊢
            cases hm : L.readVectorW o.membershipKeyed (List.replicate (L.span g) 0)
                (fs o.membershipFile) o.membershipStart with
            | error e => simp [hm, Run.after] at h
            | ok m =>
              simp only [hm, Run.after] at h ⊢
              refine ⟨g, m, by simp, ?_⟩
              simpa using h
          · simp only [hs, if_false] at h ⊢
            unfold analyse at h ⊢
            cases hm : L.readVectorW o.membershipKeyed
                (List.replicate (L.span (L.symmetrizeOmp g)) 0)
                (fs o.membershipFile) o.membershipStart with
            | error e => simp [hm, Run.after] at h
            | ok m =>
              simp only [hm, Run.after] at h ⊢
              refine ⟨L.symmetrizeOmp g, m, by simp, ?_⟩
              simpa using h
      · simp [hh, hv] at h

theorem symmetrizeOmp_singleEdgeGraph {W : Type} (w : W) :
    symmetrizeOmp (singleEdgeGraph w) = ⟨[[(1, w)], [(0, w)], []]⟩ := by
  simp [symmetrizeOmp, singleEdgeGraph, GraphStore.edges, edgesFrom, symmetrizeStep,
    GraphStore.hasEdge, GraphStore.targets, GraphStore.outNeighbors, GraphStore.ofSpan,
    GraphStore.addEdge, GraphStore.addVertex, modifyAt, upsert, GraphStore.span,
    List.replicate]

theorem communities_three (W : Type) (x : GraphStore W) (c : Nat) :
    communities x [c, c, c] = [(c, [0, 1, 2])] := by
  simp [communities, communityIndexFrom, communityInsert]

theorem singleEdgeGraph_flags {W : Type} (w : W) (c : Nat) :
    communitiesDisconnectedOmp (symmetrizeOmp (singleEdgeGraph w)) [c, c, c] = [1] := by
  rw [symmetrizeOmp_singleEdgeGraph]
  simp [communitiesDisconnectedOmp, communities_three, communityDisconnected, traverse,
    internalTargets, GraphStore.targets, GraphStore.outNeighbors]

theorem singleEdgeGraph_not_reaches {W : Type} (w : W) (c : Nat) :
    ¬ Reaches (symmetrizeOmp (singleEdgeGraph w)) [c, c, c] c 0 2 := by
  rw [symmetrizeOmp_singleEdgeGraph]
  intro h
  have key : ∀ a, Reaches (⟨[[(1, w)], [(0, w)], []]⟩ : GraphStore W) [c, c, c] c 0 a →
      a = 0 ∨ a = 1 := by
    intro a ha
    induction ha with
    | refl => exact Or.inl rfl
    | tail _ hstep ih =>
      have ht := hstep.2.2
      rcases ih with ih | ih <;> subst ih <;>
        simp [GraphStore.targets, GraphStore.outNeighbors] at ht <;> omega
  rcases key 2 h with h | h <;> omega

theorem one_le_countValue_of_flagged {W : Type} (x : GraphStore W) (membership : List Nat)
    (c : Nat)
    (h : (c, 1) ∈ List.zip ((communities x membership).map Prod.fst)
      (communitiesDisconnectedOmp x membership)) :
    1 ≤ countValue (communitiesDisconnectedOmp x membership) 1 := by
  have h1 : 1 ∈ communitiesDisconnectedOmp x membership := (List.of_mem_zip h).2
  exact List.count_pos_iff.2 h1

theorem scenario_run {W : Type} (w : W) (c : Nat)
    (readMtx : Bool → GraphStore W → IStream → Except String (GraphStore W))
    (readCoo readEdgelist : Bool → GraphStore W → IStream → Bool → Except String (GraphStore W))
    (readVector : Bool → List Nat → IStream → Int → Except String (List Nat))
    (fs : Files) (argv : List String) (o : Options)
    (hp : parseOptions argv = some o) (hh : o.help = false) (hv : validateOptions o = true)
    (hs : o.symmetric = false)
    (hr : readGraphW (modelLibrary readMtx readCoo readEdgelist readVector) fs o.weighted
      (GraphStore.ofSpan 0) o.inputFile o.inputFormat o.symmetric = .ok (singleEdgeGraph w))
    (hm : readVector o.membershipKeyed [0, 0, 0] (fs o.membershipFile) o.membershipStart
      = .ok [c, c, c]) :
    main (modelLibrary readMtx readCoo readEdgelist readVector) fs argv =
      ⟨[.readGraph o.inputFile o.inputFormat o.weighted false,
        .symmetrize (singleEdgeGraph w),
        .sizeMembership (symmetrizeOmp (singleEdgeGraph w)) 3,
        .readMembership o.membershipFile o.membershipKeyed o.membershipStart,
        .communities (symmetrizeOmp (singleEdgeGraph w)) [c, c, c],
        .communitiesDisconnected (symmetrizeOmp (singleEdgeGraph w)) [c, c, c],
        .report 1 1], .code 0⟩ := by
  rw [main_of_valid _ fs argv o hp hh hv]
  have hspan : (symmetrizeOmp (singleEdgeGraph w)).span = 3 := by
    rw [symmetrizeOmp_singleEdgeGraph]; rfl
  have hflags := singleEdgeGraph_flags w c
  have hcom := communities_three W (symmetrizeOmp (singleEdgeGraph w)) c
  generalize hyy : symmetrizeOmp (singleEdgeGraph w) = y at hspan hflags hcom ⊢
  have hr2 : readGraphW (modelLibrary readMtx readCoo readEdgelist readVector) fs o.weighted
      (modelLibrary readMtx readCoo readEdgelist readVector).empty o.inputFile o.inputFormat
      o.symmetric = .ok (singleEdgeGraph w) := hr
  have hy : (modelLibrary readMtx readCoo readEdgelist readVector).symmetrizeOmp
      (singleEdgeGraph w) = y := hyy
  unfold pipeline
  rw [hr2]
  simp only [hs, Bool.false_eq_true, if_false, hy]
  have hspan2 : (modelLibrary readMtx readCoo readEdgelist readVector).span y = 3 := hspan
  have hm2 : (modelLibrary readMtx readCoo readEdgelist readVector).readVectorW
      o.membershipKeyed [0, 0, 0] (fs o.membershipFile) o.membershipStart = .ok [c, c, c] := hm
  have hcom2 : (modelLibrary readMtx readCoo readEdgelist readVector).communities y [c, c, c]
      = [(c, [0, 1, 2])] := hcom
  have hflags2 : (modelLibrary readMtx readCoo readEdgelist readVector).countValue
      ((modelLibrary readMtx readCoo readEdgelist readVector).communitiesDisconnectedOmp y
        [c, c, c]) 1 = 1 := by
    show countValue (communitiesDisconnectedOmp y [c, c, c]) 1 = 1
    rw [hflags]; rfl
  unfold analyse
  simp only [hspan2, List.replicate, hm2, hcom2, hflags2, Run.after, List.length_singleton,
    List.cons_append, List.nil_append]

/-- C5: in the model, the community count is the number of distinct community ids of the
membership and the disconnected count is at most the community count, for every graph and
every membership; and whenever `main` over the model prints its report, the two counts it
prints are these counts for the graph and membership it analysed, so `ndis ≤ ncom`. -/
theorem count_conservation {W : Type} :
    (∀ (x : GraphStore W) (membership : List Nat),
      (communities x membership).length = membership.toFinset.card ∧
      countValue (communitiesDisconnectedOmp x membership) 1
        ≤ (communities x membership).length) ∧
    (∀ (readMtx : Bool → GraphStore W → IStream → Except String (GraphStore W))
      (readCoo readEdgelist :
        Bool → GraphStore W → IStream → Bool → Except String (GraphStore W))
      (readVector : Bool → List Nat → IStream → Int → Except String (List Nat))
      (fs : Files) (argv : List String) (ncom ndis : Nat),
      Step.report ncom ndis ∈
        (main (modelLibrary readMtx readCoo readEdgelist readVector) fs argv).steps →
      ndis ≤ ncom ∧ ∃ x membership,
        Step.communities x membership ∈
          (main (modelLibrary readMtx readCoo readEdgelist readVector) fs argv).steps ∧
        ncom = membership.toFinset.card ∧
        ndis = countValue (communitiesDisconnectedOmp x membership) 1) := by
  constructor
  · intro x membership
    exact ⟨communities_length x membership, countValue_le_communities x membership⟩
  · intro readMtx readCoo readEdgelist readVector fs argv ncom ndis h
    obtain ⟨x, m, h1, h2, h3⟩ := main_report _ fs argv ncom ndis h
    have h2' : ncom = (communities x m).length := h2
    have h3' : ndis = countValue (communitiesDisconnectedOmp x m) 1 := h3
    refine ⟨?_, x, m, h1, ?_, h3'⟩
    · rw [h2', h3']; exact countValue_le_communities x m
    · rw [h2', communities_length]

/-- C6: in the model, for every graph and membership, a community with two members of which
one cannot be reached from the other through internal edges of the symmetrized graph has the
flag 1, so it is counted as disconnected; and when the reader returns the graph on the
vertices 0, 1, 2 with the single edge (0, 1), the options do not set `symmetric`, and the
membership read gives the three vertices one community, `main` reads, symmetrizes, loads the
membership, analyses, reports 1 community and 1 disconnected community, and returns 0. -/
theorem disconnected_community_counted {W : Type} :
    (∀ (x : GraphStore W) (membership : List Nat) (c u v : Nat),
      membership[u]? = some c → membership[v]? = some c →
      ¬ Reaches (symmetrizeOmp x) membership c u v →
      (c, 1) ∈ List.zip ((communities (symmetrizeOmp x) membership).map Prod.fst)
        (communitiesDisconnectedOmp (symmetrizeOmp x) membership) ∧
      1 ≤ countValue (communitiesDisconnectedOmp (symmetrizeOmp x) membership) 1) ∧
    (∀ (w : W) (c : Nat)
      (readMtx : Bool → GraphStore W → IStream → Except String (GraphStore W))
      (readCoo readEdgelist :
        Bool → GraphStore W → IStream → Bool → Except String (GraphStore W))
      (readVector : Bool → List Nat → IStream → Int → Except String (List Nat))
      (fs : Files) (argv : List String) (o : Options),
      parseOptions argv = some o → o.help = false → validateOptions o = true →
      o.symmetric = false →
      readGraphW (modelLibrary readMtx readCoo readEdgelist readVector) fs o.weighted
        (GraphStore.ofSpan 0) o.inputFile o.inputFormat o.symmetric
        = .ok (singleEdgeGraph w) →
      readVector o.membershipKeyed [0, 0, 0] (fs o.membershipFile) o.membershipStart
        = .ok [c, c, c] →
      main (modelLibrary readMtx readCoo readEdgelist readVector) fs argv =
        ⟨[.readGraph o.inputFile o.inputFormat o.weighted false,
          .symmetrize (singleEdgeGraph w),
          .sizeMembership (symmetrizeOmp (singleEdgeGraph w)) 3,
          .readMembership o.membershipFile o.membershipKeyed o.membershipStart,
          .communities (symmetrizeOmp (singleEdgeGraph w)) [c, c, c],
          .communitiesDisconnected (symmetrizeOmp (singleEdgeGraph w)) [c, c, c],
          .report 1 1], .code 0⟩) := by
  constructor
  · intro x membership c u v hu hv hnr
    have h := flagged_of_unreachable x membership c u v hu hv hnr
    exact ⟨h, one_le_countValue_of_flagged _ _ c h⟩
  · intro w c readMtx readCoo readEdgelist readVector fs argv o hp hh hv hs hr hm
    exact scenario_run w c readMtx readCoo readEdgelist readVector fs argv o hp hh hv hs hr hm

theorem scenarioLibrary_run :
    main (scenarioLibrary (singleEdgeGraph 1) [5, 5, 5]) noFiles
        ["prog", "-i", "g.mtx", "-m", "c.txt"] =
      ⟨[.readGraph "g.mtx" "mtx" false false,
        .symmetrize (singleEdgeGraph 1),
        .sizeMembership (symmetrizeOmp (singleEdgeGraph 1)) 3,
        .readMembership "c.txt" false 0,
        .communities (symmetrizeOmp (singleEdgeGraph 1)) [5, 5, 5],
        .communitiesDisconnected (symmetrizeOmp (singleEdgeGraph 1)) [5, 5, 5],
        .report 1 1], .code 0⟩ :=
  scenario_run (1 : ℚ) 5 _ _ _ _ noFiles ["prog", "-i", "g.mtx", "-m", "c.txt"]
    { inputFile := "g.mtx", membershipFile := "c.txt" } (by decide) rfl (by decide) rfl
    (by simp [readGraphW, readerBranch, modelLibrary]) rfl

/-- Witness of C5 on the run of `-i g.mtx -m c.txt` over the single-edge graph. -/
theorem count_conservation_witness :
    Step.report 1 1 ∈ (main (scenarioLibrary (singleEdgeGraph 1) [5, 5, 5]) noFiles
      ["prog", "-i", "g.mtx", "-m", "c.txt"]).steps ∧
    (1 ≤ 1 ∧ ∃ x membership,
      Step.communities x membership ∈ (main (scenarioLibrary (singleEdgeGraph 1) [5, 5, 5])
        noFiles ["prog", "-i", "g.mtx", "-m", "c.txt"]).steps ∧
      1 = membership.toFinset.card ∧
      1 = countValue (communitiesDisconnectedOmp x membership) 1) :=
  ⟨by rw [scenarioLibrary_run]; simp,
    count_conservation.2 _ _ _ _ noFiles ["prog", "-i", "g.mtx", "-m", "c.txt"] 1 1
      (by
        show Step.report 1 1 ∈ (main (scenarioLibrary (singleEdgeGraph 1) [5, 5, 5]) noFiles
          ["prog", "-i", "g.mtx", "-m", "c.txt"]).steps
        rw [scenarioLibrary_run]; simp)⟩

/-- Witness of C6: in the single-edge graph with one community, vertex 2 cannot be reached
from vertex 0, and the run of `-i g.mtx -m c.txt` reports 1 and 1. -/
theorem disconnected_community_counted_witness :
    (¬ Reaches (symmetrizeOmp (singleEdgeGraph (1 : ℚ))) [5, 5, 5] 5 0 2 ∧
      (5, 1) ∈ List.zip
        ((communities (symmetrizeOmp (singleEdgeGraph (1 : ℚ))) [5, 5, 5]).map Prod.fst)
        (communitiesDisconnectedOmp (symmetrizeOmp (singleEdgeGraph (1 : ℚ))) [5, 5, 5]) ∧
      1 ≤ countValue
        (communitiesDisconnectedOmp (symmetrizeOmp (singleEdgeGraph (1 : ℚ))) [5, 5, 5]) 1) ∧
    main (scenarioLibrary (singleEdgeGraph 1) [5, 5, 5]) noFiles
        ["prog", "-i", "g.mtx", "-m", "c.txt"] =
      ⟨[.readGraph "g.mtx" "mtx" false false,
        .symmetrize (singleEdgeGraph 1),
        .sizeMembership (symmetrizeOmp (singleEdgeGraph 1)) 3,
        .readMembership "c.txt" false 0,
        .communities (symmetrizeOmp (singleEdgeGraph 1)) [5, 5, 5],
        .communitiesDisconnected (symmetrizeOmp (singleEdgeGraph 1)) [5, 5, 5],
        .report 1 1], .code 0⟩ :=
  ⟨⟨singleEdgeGraph_not_reaches 1 5,
    disconnected_community_counted.1 (singleEdgeGraph 1) [5, 5, 5] 5 0 2 rfl rfl
      (singleEdgeGraph_not_reaches 1 5)⟩,
    disconnected_community_counted.2 (1 : ℚ) 5 _ _ _ _ noFiles
      ["prog", "-i", "g.mtx", "-m", "c.txt"]
      { inputFile := "g.mtx", membershipFile := "c.txt" } (by decide) rfl (by decide) rfl
      (by simp [readGraphW, readerBranch, modelLibrary]) rfl⟩


/-! ## Completeness of the traversal -/

/-- With fuel for every member of the community, the traversal ends with an empty queue: its
result contains the vertices it started from and is closed under internal edges. -/
theorem traverse_closed {W : Type} (x : GraphStore W) (membership : List Nat) (c : Nat)
    (ms : List Nat) (hms : ∀ a, a ∈ ms ↔ membership[a]? = some c) :
    ∀ (fuel : Nat) (queue visited : List Nat), visited.Nodup → queue.Nodup →
      (∀ a ∈ queue, a ∈ visited) → (∀ a ∈ visited, membership[a]? = some c) →
      (∀ a ∈ visited, a ∉ queue → ∀ b, InternalEdge x membership c a b → b ∈ visited) →
      ms.length + queue.length ≤ visited.length + fuel →
      (∀ a ∈ visited, a ∈ traverse x membership c fuel queue visited) ∧
        ∀ a ∈ traverse x membership c fuel queue visited,
          ∀ b, InternalEdge x membership c a b →
            b ∈ traverse x membership c fuel queue visited := by
  intro fuel
  induction fuel with
  | zero =>
    intro queue visited hvn _ _ hvm hcl hlen
    have hle : visited.length ≤ ms.length :=
      (List.subperm_of_subset hvn (fun a ha => (hms a).2 (hvm a ha))).length_le
    have hq : queue = [] := List.length_eq_zero.1 (by omega)
    subst hq
    simp only [traverse]
    exact ⟨fun a ha => ha, fun a ha b hab => hcl a ha (List.not_mem_nil a) b hab⟩
  | succ fuel ih =>
    intro queue visited hvn hqn hqv hvm hcl hlen
    cases queue with
    | nil =>
      simp only [traverse]
      exact ⟨fun a ha => ha, fun a ha b hab => hcl a ha (List.not_mem_nil a) b hab⟩
    | cons u queue =>
      simp only [traverse]
      have hfresh : ∀ a, a ∈ ((internalTargets x membership c u).filter
          fun v => !visited.contains v).dedup ↔
          InternalEdge x membership c u a ∧ a ∉ visited := by
        intro a
        rw [List.mem_dedup, List.mem_filter, mem_internalTargets]
        simp
      have hqn' := List.nodup_cons.1 hqn
      have hrec := ih
        (queue ++ ((internalTargets x membership c u).filter
          fun v => !visited.contains v).dedup)
        (visited ++ ((internalTargets x membership c u).filter
          fun v => !visited.contains v).dedup)
        (List.Nodup.append hvn (List.nodup_dedup _)
          (fun a ha1 ha2 => ((hfresh a).1 ha2).2 ha1))
        (List.Nodup.append hqn'.2 (List.nodup_dedup _)
          (fun a ha1 ha2 => ((hfresh a).1 ha2).2 (hqv a (List.mem_cons_of_mem _ ha1))))
        (by
          intro a ha
          rcases List.mem_append.1 ha with ha | ha
          · exact List.mem_append_left _ (hqv a (List.mem_cons_of_mem _ ha))
          · exact List.mem_append_right _ ha)
        (by
          intro a ha
          rcases List.mem_append.1 ha with ha | ha
          · exact hvm a ha
          · exact ((hfresh a).1 ha).1.2.1)
        (by
          intro a ha hnq b hab
          rw [List.mem_append, not_or] at hnq
          rcases List.mem_append.1 ha with ha | ha
          · by_cases hau : a = u
            · subst hau
              by_cases hb : b ∈ visited
              · exact List.mem_append_left _ hb
              · exact List.mem_append_right _ ((hfresh b).2 ⟨hab, hb⟩)
            · have hnq' : a ∉ u :: queue := by
                simp only [List.mem_cons, not_or]
                exact ⟨hau, hnq.1⟩
              exact List.mem_append_left _ (hcl a ha hnq' b hab)
          · exact absurd ha hnq.2)
        (by
          simp only [List.length_append, List.length_cons] at hlen ⊢
          omega)
      exact ⟨fun a ha => hrec.1 a (List.mem_append_left _ ha), hrec.2⟩

/-- The traversal from a member `s` of a community, with the member count as fuel, reaches
exactly the vertices that can be reached from `s` through internal edges. -/
theorem mem_traverse_iff {W : Type} (x : GraphStore W) (membership : List Nat) (c : Nat)
    (ms : List Nat) (hms : ∀ a, a ∈ ms ↔ membership[a]? = some c)
    (s : Nat) (hs : s ∈ ms) (a : Nat) :
    a ∈ traverse x membership c ms.length [s] [s] ↔ Reaches x membership c s a := by
  have hsc := (hms s).1 hs
  constructor
  · intro ha
    exact ((traverse_sound x membership c s ms.length [s] [s] (List.nodup_singleton s)
      (by
        intro b hb
        rw [List.mem_singleton] at hb
        subst hb
        exact ⟨Relation.ReflTransGen.refl, hsc⟩)
      (fun b hb => hb)).2 a ha).1
  · intro hr
    obtain ⟨h1, h2⟩ := traverse_closed x membership c ms hms ms.length [s] [s]
      (List.nodup_singleton s) (List.nodup_singleton s) (fun b hb => hb)
      (by
        intro b hb
        rw [List.mem_singleton] at hb
        subst hb
        exact hsc)
      (fun b hb hnb => absurd hb hnb)
      (by simp only [List.length_singleton]; omega)
    induction hr with
    | refl => exact h1 s (List.mem_singleton_self s)
    | tail _ hstep ih => exact h2 _ ih _ hstep

/-- The test of the analyser is exact: a community of the index is found disconnected if and
only if some member cannot be reached from its first member through internal edges. -/
theorem communityDisconnected_iff {W : Type} (x : GraphStore W) (membership : List Nat)
    (c s : Nat) (rest : List Nat) (hn : (s :: rest).Nodup)
    (hms : ∀ a, a ∈ s :: rest ↔ membership[a]? = some c) :
    communityDisconnected x membership (c, s :: rest) = true ↔
      ∃ a ∈ s :: rest, ¬ Reaches x membership c s a := by
  have hmem := mem_traverse_iff x membership c (s :: rest) hms s (List.mem_cons_self _ _)
  obtain ⟨hrn, hr⟩ := traverse_sound x membership c s (s :: rest).length [s] [s]
    (List.nodup_singleton s)
    (by
      intro b hb
      rw [List.mem_singleton] at hb
      subst hb
      exact ⟨Relation.ReflTransGen.refl, (hms b).1 (List.mem_cons_self _ _)⟩)
    (fun b hb => hb)
  have hsub : traverse x membership c (s :: rest).length [s] [s] ⊆ s :: rest :=
    fun a ha => (hms a).2 (hr a ha).2
  have hsp := List.subperm_of_subset hrn hsub
  have hiff : (traverse x membership c (s :: rest).length [s] [s]).length < (s :: rest).length ↔
      ∃ a ∈ s :: rest, ¬ Reaches x membership c s a := by
    constructor
    · intro hlt
      by_contra hall
      push_neg at hall
      have hsub2 : s :: rest ⊆ traverse x membership c (s :: rest).length [s] [s] :=
        fun a ha => (hmem a).2 (hall a ha)
      have := (List.subperm_of_subset hn hsub2).length_le
      omega
    · rintro ⟨a, ha, hnr⟩
      by_contra hge
      have hperm := hsp.perm_of_length_le (by omega)
      exact hnr ((hmem a).1 (hperm.mem_iff.2 ha))
  cases rest with
  | nil =>
    simp only [communityDisconnected, Bool.false_eq_true, false_iff]
    rintro ⟨a, ha, hnr⟩
    rw [List.mem_singleton] at ha
    subst ha
    exact hnr Relation.ReflTransGen.refl
  | cons t rest =>
    simp only [communityDisconnected, decide_eq_true_eq]
    exact hiff

/-! ## What the symmetrizer puts into its output -/

theorem mem_edgesFrom {W : Type} (adj : List (List (Nat × W))) (k u v : Nat) (w : W) :
    (u, v, w) ∈ edgesFrom k adj ↔ k ≤ u ∧ (v, w) ∈ adj.getD (u - k) [] := by
  induction adj generalizing k with
  | nil => simp [edgesFrom]
  | cons out adj ih =>
    simp only [edgesFrom, List.mem_append, List.mem_map, Prod.mk.injEq, ih]
    constructor
    · rintro (⟨e, he, h1, h2, h3⟩ | ⟨h1, h2⟩)
      · subst h1
        have : e = (v, w) := by rw [← h2, ← h3]
        subst this
        simpa using he
      · refine ⟨by omega, ?_⟩
        have : u - k = (u - (k + 1)) + 1 := by omega
        rw [this]
        simpa using h2
    · rintro ⟨h1, h2⟩
      by_cases hk : u = k
      · subst hk
        left
        exact ⟨(v, w), by simpa using h2, by simp⟩
      · right
        refine ⟨by omega, ?_⟩
        have : u - k = (u - (k + 1)) + 1 := by omega
        rw [this] at h2
        simpa using h2

theorem mem_edges {W : Type} (g : GraphStore W) (u v : Nat) (w : W) :
    (u, v, w) ∈ g.edges ↔ (v, w) ∈ g.outNeighbors u := by
  simp [GraphStore.edges, GraphStore.outNeighbors, mem_edgesFrom]

theorem symmetrizeStep_mono {W : Type} (y : GraphStore W) (e : Nat × Nat × W) (a b : Nat)
    (h : b ∈ y.targets a) : b ∈ (symmetrizeStep y e).targets a := by
  unfold symmetrizeStep
  split_ifs
  · exact h
  · simp only [addEdge_targets]
    exact Or.inr (Or.inr h)

theorem symmetrizeStep_adds {W : Type} (y : GraphStore W) (e : Nat × Nat × W) :
    e.2.1 ∈ (symmetrizeStep y e).targets e.1 := by
  unfold symmetrizeStep
  split_ifs with h
  · exact (hasEdge_iff y _ _).1 h
  · simp [addEdge_targets]

theorem foldl_symmetrizeStep_mono {W : Type} (es : List (Nat × Nat × W)) :
    ∀ (y : GraphStore W) (a b : Nat), b ∈ y.targets a →
      b ∈ (es.foldl symmetrizeStep y).targets a := by
  induction es with
  | nil => intro y a b h; simpa using h
  | cons e es ih =>
    intro y a b h
    simpa using ih _ a b (symmetrizeStep_mono y e a b h)

theorem foldl_symmetrizeStep_adds {W : Type} (es : List (Nat × Nat × W)) :
    ∀ (y : GraphStore W), ∀ e ∈ es, e.2.1 ∈ (es.foldl symmetrizeStep y).targets e.1 := by
  induction es with
  | nil => intro y e he; simp at he
  | cons e0 es ih =>
    intro y e he
    rcases List.mem_cons.1 he with he | he
    · subst he
      simpa using foldl_symmetrizeStep_mono es _ _ _ (symmetrizeStep_adds y e)
    · simpa using ih _ e he

theorem foldl_symmetrizeStep_only {W : Type} (Q : Nat → Nat → Prop)
    (es : List (Nat × Nat × W)) :
    ∀ (y : GraphStore W), (∀ a b, b ∈ y.targets a → Q a b) →
      (∀ e ∈ es, Q e.1 e.2.1 ∧ Q e.2.1 e.1) →
      ∀ a b, b ∈ (es.foldl symmetrizeStep y).targets a → Q a b := by
  induction es with
  | nil => intro y hy _ a b h; exact hy a b (by simpa using h)
  | cons e es ih =>
    intro y hy hes a b h
    refine ih (symmetrizeStep y e) ?_ (fun e1 h1 => hes e1 (List.mem_cons_of_mem _ h1)) a b
      (by simpa using h)
    intro a1 b1 h1
    unfold symmetrizeStep at h1
    split_ifs at h1
    · exact hy a1 b1 h1
    · simp only [addEdge_targets] at h1
      have he := hes e (List.mem_cons_self _ _)
      rcases h1 with ⟨h2, h3⟩ | ⟨h2, h3⟩ | h1
      · rw [h2, h3]; exact he.2
      · rw [h2, h3]; exact he.1
      · exact hy a1 b1 h1

/-- The symmetrizer of the model meets its contract: the output has an edge from `a` to `b`
exactly when the input has an edge from `a` to `b` or from `b` to `a`. -/
theorem symmetrizeOmp_targets {W : Type} (x : GraphStore W) (a b : Nat) :
    b ∈ (symmetrizeOmp x).targets a ↔ b ∈ x.targets a ∨ a ∈ x.targets b := by
  have hin : ∀ u v, v ∈ x.targets u → v ∈ (symmetrizeOmp x).targets u := by
    intro u v h
    obtain ⟨⟨v1, w⟩, hmem, hv⟩ := List.mem_map.1 h
    simp only at hv
    subst hv
    exact foldl_symmetrizeStep_adds x.edges _ (u, v1, w) ((mem_edges x u v1 w).2 hmem)
  constructor
  · intro h
    refine foldl_symmetrizeStep_only (fun a b => b ∈ x.targets a ∨ a ∈ x.targets b) x.edges
      (GraphStore.ofSpan x.span) ?_ ?_ a b h
    · intro a1 b1 h1
      simp [ofSpan_targets] at h1
    · rintro ⟨u, v, w⟩ he
      have hv : v ∈ x.targets u :=
        List.mem_map.2 ⟨(v, w), (mem_edges x u v w).1 he, rfl⟩
      exact ⟨Or.inl hv, Or.inr hv⟩
  · rintro (h | h)
    · exact hin a b h
    · exact (symmetrizeOmp_symmetric x b a).1 (hin b a h)

/-! ## The other end-to-end scenarios -/

/-- Scenario 1: the path 0 - 1 - 2 in one community is connected. -/
theorem scenario_path {W : Type} (w : W) (c : Nat) :
    communities (symmetrizeOmp (⟨[[(1, w)], [(2, w)], []]⟩ : GraphStore W)) [c, c, c]
      = [(c, [0, 1, 2])] ∧
    communitiesDisconnectedOmp (symmetrizeOmp (⟨[[(1, w)], [(2, w)], []]⟩ : GraphStore W))
      [c, c, c] = [0] := by
  have h : symmetrizeOmp (⟨[[(1, w)], [(2, w)], []]⟩ : GraphStore W)
      = ⟨[[(1, w)], [(0, w), (2, w)], [(1, w)]]⟩ := by
    simp [symmetrizeOmp, GraphStore.edges, edgesFrom, symmetrizeStep,
      GraphStore.hasEdge, GraphStore.targets, GraphStore.outNeighbors, GraphStore.ofSpan,
      GraphStore.addEdge, GraphStore.addVertex, modifyAt, upsert, GraphStore.span,
      List.replicate]
  refine ⟨communities_three W _ c, ?_⟩
  rw [h]
  simp [communitiesDisconnectedOmp, communities_three, communityDisconnected, traverse,
    internalTargets, GraphStore.targets, GraphStore.outNeighbors]

/-- Scenario 3: two communities, each joined by one edge, are both connected. -/
theorem scenario_two_pairs {W : Type} (w : W) :
    communities (symmetrizeOmp (⟨[[(1, w)], [], [(3, w)], []]⟩ : GraphStore W)) [7, 7, 8, 8]
      = [(7, [0, 1]), (8, [2, 3])] ∧
    communitiesDisconnectedOmp (symmetrizeOmp (⟨[[(1, w)], [], [(3, w)], []]⟩ : GraphStore W))
      [7, 7, 8, 8] = [0, 0] := by
  have h : symmetrizeOmp (⟨[[(1, w)], [], [(3, w)], []]⟩ : GraphStore W)
      = ⟨[[(1, w)], [(0, w)], [(3, w)], [(2, w)]]⟩ := by
    simp [symmetrizeOmp, GraphStore.edges, edgesFrom, symmetrizeStep,
      GraphStore.hasEdge, GraphStore.targets, GraphStore.outNeighbors, GraphStore.ofSpan,
      GraphStore.addEdge, GraphStore.addVertex, modifyAt, upsert, GraphStore.span,
      List.replicate]
  have hc : ∀ x : GraphStore W, communities x [7, 7, 8, 8] = [(7, [0, 1]), (8, [2, 3])] := by
    intro x
    simp [communities, communityIndexFrom, communityInsert]
  refine ⟨hc _, ?_⟩
  rw [h]
  simp [communitiesDisconnectedOmp, hc, communityDisconnected, traverse,
    internalTargets, GraphStore.targets, GraphStore.outNeighbors]

end DisconnectedCommunities
